import Mathlib

/-!
Verification of the plugin dependency graph of `scaffoldpy`
(`src/scaffoldpy/plugins.py`).

A plugin is a Python class; its identity is the class object itself and its
declared prerequisites are the class attribute `dependencies`.  We embed a
plugin as a value of an arbitrary type `α` with decidable equality and model
the `dependencies` attribute as an ambient function `deps : α → List α`.

`PluginDependencyGraph` holds
  * `_graph : defaultdict(list)` mapping a plugin to the list of plugins that
    depend on it — embedded as an insertion-ordered association list, with the
    `defaultdict` behaviour that reading a missing key inserts an empty list;
  * `_plugins : set` — embedded as an insertion-ordered duplicate-free list
    (CPython set iteration order is unspecified; insertion order is the fixed
    choice used throughout this embedding).

Python integers are embedded as `Int` (the in-degree counter can go negative
during Kahn's algorithm, and `-1 == 0` must be false).  The `while queue`
loop is embedded with a fuel parameter equal to the number of known plugins;
the invariant proofs below show the queue always empties before the fuel
does, so the fuel never truncates a run.
-/

namespace Scaffoldpy

variable {α : Type} [DecidableEq α]

/-- Number of occurrences of `v` in a list (Python `list.count`-style). -/
def cnt (v : α) (l : List α) : Nat :=
  (l.filter (fun a => a = v)).length

@[simp] theorem cnt_nil (v : α) : cnt v ([] : List α) = 0 := rfl

theorem cnt_cons (v a : α) (l : List α) :
    cnt v (a :: l) = (if a = v then 1 else 0) + cnt v l := by
  simp only [cnt, List.filter_cons]
  by_cases h : a = v <;> simp [h] <;> omega

@[simp] theorem cnt_append (v : α) (l₁ l₂ : List α) :
    cnt v (l₁ ++ l₂) = cnt v l₁ + cnt v l₂ := by
  simp [cnt, List.filter_append]

@[simp] theorem cnt_replicate_self (v : α) (n : Nat) :
    cnt v (List.replicate n v) = n := by
  induction n with
  | zero => rfl
  | succ n ih => simp [List.replicate_succ, cnt_cons, ih]; omega

theorem cnt_pos_of_mem {v : α} {l : List α} (h : v ∈ l) : 0 < cnt v l := by
  induction l with
  | nil => cases h
  | cons a l ih =>
    rcases List.mem_cons.mp h with h | h
    · subst h; simp [cnt_cons]
    · have := ih h; rw [cnt_cons]; omega

theorem mem_of_cnt_pos {v : α} {l : List α} (h : 0 < cnt v l) : v ∈ l := by
  induction l with
  | nil => simp [cnt] at h
  | cons a l ih =>
    rw [cnt_cons] at h
    by_cases hav : a = v
    · subst hav; exact List.mem_cons_self a l
    · simp only [hav, if_false, Nat.zero_add] at h
      exact List.mem_cons_of_mem _ (ih h)

theorem cnt_eq_zero_of_not_mem {v : α} {l : List α} (h : v ∉ l) : cnt v l = 0 := by
  by_contra hne
  exact h (mem_of_cnt_pos (Nat.pos_of_ne_zero hne))

/-- `set.add`: append iff not already present (insertion-ordered set). -/
def sadd (s : List α) (x : α) : List α :=
  if x ∈ s then s else s ++ [x]

theorem mem_sadd_self (s : List α) (x : α) : x ∈ sadd s x := by
  unfold sadd
  by_cases h : x ∈ s <;> simp [h]

theorem mem_sadd_of_mem {s : List α} {y : α} (x : α) (h : y ∈ s) : y ∈ sadd s x := by
  unfold sadd
  by_cases hx : x ∈ s <;> simp [hx, h]

theorem mem_sadd_iff {s : List α} {x y : α} : y ∈ sadd s x ↔ y ∈ s ∨ y = x := by
  unfold sadd
  by_cases h : x ∈ s
  · simp only [h, if_true]
    constructor
    · exact fun hy => Or.inl hy
    · rintro (hy | rfl) <;> [exact hy; exact h]
  · simp [h]

theorem sadd_nodup {s : List α} (h : s.Nodup) (x : α) : (sadd s x).Nodup := by
  unfold sadd
  by_cases hx : x ∈ s
  · simpa [hx]
  · simp only [hx, if_false]
    refine List.Nodup.append h (List.nodup_singleton x) ?_
    intro a ha hb
    rw [List.mem_singleton] at hb
    exact hx (hb ▸ ha)

theorem sadd_eq_of_mem {s : List α} {x : α} (h : x ∈ s) : sadd s x = s := by
  simp [sadd, h]

/-- Fold a set-add over a list. -/
theorem foldl_sadd_mem (s : List α) (l : List α) {y : α} (h : y ∈ s) :
    y ∈ l.foldl sadd s := by
  induction l generalizing s with
  | nil => exact h
  | cons a l ih => exact ih _ (mem_sadd_of_mem a h)

theorem foldl_sadd_mem_of_mem_list (s : List α) {l : List α} {y : α} (h : y ∈ l) :
    y ∈ l.foldl sadd s := by
  induction l generalizing s with
  | nil => cases h
  | cons a l ih =>
    rcases List.mem_cons.mp h with rfl | h
    · rw [List.foldl_cons]
      exact foldl_sadd_mem _ _ (mem_sadd_self _ _)
    · exact ih _ h

theorem foldl_sadd_mem_iff {s : List α} {l : List α} {y : α} :
    y ∈ l.foldl sadd s ↔ y ∈ s ∨ y ∈ l := by
  induction l generalizing s with
  | nil => simp
  | cons a l ih =>
    simp only [List.foldl_cons]
    rw [ih]
    rw [mem_sadd_iff]
    constructor
    · rintro ((h | rfl) | h)
      · exact Or.inl h
      · exact Or.inr (List.mem_cons_self _ _)
      · exact Or.inr (List.mem_cons_of_mem _ h)
    · rintro (h | h)
      · exact Or.inl (Or.inl h)
      · rcases List.mem_cons.mp h with rfl | h
        · exact Or.inl (Or.inr rfl)
        · exact Or.inr h

theorem foldl_sadd_nodup {s : List α} (h : s.Nodup) (l : List α) :
    (l.foldl sadd s).Nodup := by
  induction l generalizing s with
  | nil => exact h
  | cons a l ih => exact ih (sadd_nodup h a)

theorem foldl_sadd_eq_of_subset {s : List α} {l : List α}
    (h : ∀ a ∈ l, a ∈ s) : l.foldl sadd s = s := by
  induction l with
  | nil => rfl
  | cons a l ih =>
    have ha : a ∈ s := h a (List.mem_cons_self _ _)
    simp only [List.foldl_cons, sadd_eq_of_mem ha]
    exact ih (fun b hb => h b (List.mem_cons_of_mem _ hb))

/-- `defaultdict(list)` embedded as an insertion-ordered association list. -/
abbrev Graph (α : Type) := List (α × List α)

/-- Dictionary lookup; a missing key reads as the default `[]`. -/
def lookupD : Graph α → α → List α
  | [], _ => []
  | e :: es, k => if e.1 = k then e.2 else lookupD es k

/-- `self._graph[k].append(v)`: append to the list stored at `k`, creating
the entry (with default `[]`) if absent. -/
def ddAppend : Graph α → α → α → Graph α
  | [], k, v => [(k, [v])]
  | e :: es, k, v => if e.1 = k then (e.1, e.2 ++ [v]) :: es else e :: ddAppend es k v

/-- The side effect of merely reading `self._graph[k]` on a `defaultdict`:
a missing key is inserted with the default `[]`. -/
def ddTouch : Graph α → α → Graph α
  | [], k => [(k, [])]
  | e :: es, k => if e.1 = k then e :: es else e :: ddTouch es k

theorem lookupD_ddAppend (g : Graph α) (k v j : α) :
    lookupD (ddAppend g k v) j =
      if k = j then lookupD g j ++ [v] else lookupD g j := by
  induction g with
  | nil =>
    by_cases h : k = j <;> simp [ddAppend, lookupD, h]
  | cons e es ih =>
    by_cases hek : e.1 = k
    · have h1 : ddAppend (e :: es) k v = (e.1, e.2 ++ [v]) :: es := by
        simp [ddAppend, hek]
      rw [h1]
      by_cases hej : e.1 = j
      · have hkj : k = j := hek.symm.trans hej
        simp [lookupD, hej, hkj]
      · have hkj : ¬ k = j := fun h => hej (hek.trans h)
        simp [lookupD, hej, hkj]
    · have h1 : ddAppend (e :: es) k v = e :: ddAppend es k v := by
        simp [ddAppend, hek]
      rw [h1]
      by_cases hej : e.1 = j
      · have hkj : ¬ k = j := fun h => hek (hej.trans h.symm)
        simp [lookupD, hej, hkj]
      · simp [lookupD, hej, ih]

theorem lookupD_ddTouch (g : Graph α) (k j : α) :
    lookupD (ddTouch g k) j = lookupD g j := by
  induction g with
  | nil =>
    by_cases h : k = j <;> simp [ddTouch, lookupD, h]
  | cons e es ih =>
    by_cases hek : e.1 = k
    · simp [ddTouch, hek, lookupD]
    · have h1 : ddTouch (e :: es) k = e :: ddTouch es k := by
        simp [ddTouch, hek]
      rw [h1]
      by_cases hej : e.1 = j <;> simp [lookupD, hej, ih]

/-- The state of a `PluginDependencyGraph` object. -/
structure PDG (α : Type) where
  _graph : Graph α
  _plugins : List α

/-- `PluginDependencyGraph.__init__`. -/
def PDG.empty : PDG α := ⟨[], []⟩

/-- `add_plugin`: for every `dep` in `plugin.dependencies`, append `plugin`
to `self._graph[dep]` and add `dep` to `self._plugins`; finally add `plugin`
itself to `self._plugins`.  (The graph and the set are updated by independent
operations, so the two interleaved folds of the source are embedded as one
fold per component.) -/
def add_plugin (deps : α → List α) (g : PDG α) (x : α) : PDG α :=
  { _graph := (deps x).foldl (fun gr d => ddAppend gr d x) g._graph
    _plugins := sadd ((deps x).foldl sadd g._plugins) x }

/-- Register a whole list of plugins, in order, into the empty graph. -/
def buildPDG (deps : α → List α) (l : List α) : PDG α :=
  l.foldl (add_plugin deps) PDG.empty

/-- The in-degree table computed at the start of `get_build_order`:
`in_degree = {node: 0 for node in self._plugins}` followed by
`in_degree[dependent] += 1` over all adjacency lists.  Embedded as the
total occurrence count (a Python `int`, hence `Int`). -/
def inDeg0 (g : Graph α) (v : α) : Int :=
  ((g.map (fun e => cnt v e.2)).sum : Nat)

/-- The inner `for neighbor in self._graph[current]` loop: decrement each
neighbor's in-degree and enqueue it exactly when the counter hits zero. -/
def relax (f : α → Int) (q : List α) : List α → (α → Int) × List α
  | [] => (f, q)
  | n :: ns =>
    let d := f n - 1
    relax (fun x => if x = n then d else f x) (if d = 0 then q ++ [n] else q) ns

/-- The `while queue` loop of `get_build_order`, carrying the (mutating)
`defaultdict`: reading `self._graph[current]` inserts an empty entry for a
missing key. -/
def kahn : Nat → Graph α → List α → List α → (α → Int) → List α × Graph α
  | 0, g, _, bo, _ => (bo, g)
  | _ + 1, g, [], bo, _ => (bo, g)
  | fuel + 1, g, c :: rest, bo, f =>
    let g' := ddTouch g c
    let p := relax f rest (lookupD g' c)
    kahn fuel g' p.2 (bo ++ [c]) p.1

/-- Pure version of the loop, reading adjacency through a fixed function;
used for reasoning (`kahn_fst_eq_kahnP` links the two). -/
def kahnP (adj : α → List α) : Nat → List α → List α → (α → Int) → List α
  | 0, _, bo, _ => bo
  | _ + 1, [], bo, _ => bo
  | fuel + 1, c :: rest, bo, f =>
    let p := relax f rest (adj c)
    kahnP adj fuel p.2 (bo ++ [c]) p.1

/-- `get_build_order`: seed a FIFO queue with the zero-in-degree plugins,
run Kahn's algorithm, raise `ValueError("Cycle detected in dependencies!")`
when the order misses a plugin.  Returns the result together with the
post-call object state (the `defaultdict` may have gained empty entries). -/
def get_build_order (G : PDG α) : Except String (List α) × PDG α :=
  let f := inDeg0 G._graph
  let queue := G._plugins.filter (fun v => f v = 0)
  let r := kahn G._plugins.length G._graph queue [] f
  (if r.1.length = G._plugins.length then Except.ok r.1
   else Except.error "Cycle detected in dependencies!",
   ⟨r.2, G._plugins⟩)

/-- The dependency edge `d → p` recorded by the graph: `p` is listed in
`self._graph[d]`, i.e. `p` declared `d` among its dependencies. -/
def EdgeOf (g : Graph α) (d p : α) : Prop := p ∈ lookupD g d

/-- A dependency cycle: some plugin reaches itself through recorded edges. -/
def HasCycle (g : Graph α) : Prop := ∃ v, Relation.TransGen (EdgeOf g) v v

/-- `d` occurs strictly before `p` in the list `r`. -/
def Before (r : List α) (d p : α) : Prop :=
  ∃ i j, i < j ∧ r.get? i = some d ∧ r.get? j = some p

/-! ### Characterization of the graph built by `add_plugin` folds -/

theorem lookupD_foldl_ddAppend (l : List α) (x : α) (g : Graph α) (k : α) :
    lookupD (l.foldl (fun gr d => ddAppend gr d x) g) k =
      lookupD g k ++ List.replicate (cnt k l) x := by
  induction l generalizing g with
  | nil => simp
  | cons d ds ih =>
    rw [List.foldl_cons, ih, lookupD_ddAppend, cnt_cons]
    by_cases h : d = k
    · simp only [h, if_true]
      rw [List.append_assoc, List.singleton_append, Nat.add_comm 1 (cnt k ds),
        List.replicate_succ]
    · simp [h]

theorem lookupD_add_plugin (deps : α → List α) (g : PDG α) (x k : α) :
    lookupD (add_plugin deps g x)._graph k =
      lookupD g._graph k ++ List.replicate (cnt k (deps x)) x :=
  lookupD_foldl_ddAppend _ _ _ _

theorem lookupD_foldl_add (deps : α → List α) (l : List α) (g : PDG α) (k : α) :
    lookupD (l.foldl (add_plugin deps) g)._graph k =
      lookupD g._graph k ++
        (l.map (fun x => List.replicate (cnt k (deps x)) x)).flatten := by
  induction l generalizing g with
  | nil => simp
  | cons x xs ih =>
    rw [List.foldl_cons, ih, lookupD_add_plugin]
    simp [List.append_assoc]

/-- What `self._graph[k]` holds after registering the list `l`: one
contiguous run of `x`'s per `add_plugin(x)` call, with multiplicity the
number of occurrences of `k` in `x.dependencies`. -/
theorem lookupD_buildPDG (deps : α → List α) (l : List α) (k : α) :
    lookupD (buildPDG deps l)._graph k =
      (l.map (fun x => List.replicate (cnt k (deps x)) x)).flatten := by
  rw [buildPDG, lookupD_foldl_add]
  rfl

theorem plugins_foldl_add (deps : α → List α) (l : List α) (g : PDG α) :
    (l.foldl (add_plugin deps) g)._plugins =
      (l.map (fun x => deps x ++ [x])).flatten.foldl sadd g._plugins := by
  induction l generalizing g with
  | nil => rfl
  | cons x xs ih =>
    rw [List.foldl_cons, ih]
    simp only [List.map_cons, List.flatten_cons, List.foldl_append]
    rfl

theorem plugins_buildPDG (deps : α → List α) (l : List α) :
    (buildPDG deps l)._plugins =
      (l.map (fun x => deps x ++ [x])).flatten.foldl sadd [] :=
  plugins_foldl_add deps l PDG.empty

theorem mem_plugins_buildPDG {deps : α → List α} {l : List α} {y : α} :
    y ∈ (buildPDG deps l)._plugins ↔ ∃ x ∈ l, y ∈ deps x ∨ y = x := by
  rw [plugins_buildPDG, foldl_sadd_mem_iff]
  simp only [List.mem_flatten, List.mem_map, List.not_mem_nil, false_or]
  constructor
  · rintro ⟨t, ⟨x, hx, rfl⟩, hy⟩
    rcases List.mem_append.mp hy with h | h
    · exact ⟨x, hx, Or.inl h⟩
    · exact ⟨x, hx, Or.inr (List.mem_singleton.mp h)⟩
  · rintro ⟨x, hx, h | rfl⟩
    · exact ⟨deps x ++ [x], ⟨x, hx, rfl⟩, List.mem_append.mpr (Or.inl h)⟩
    · exact ⟨deps y ++ [y], ⟨y, hx, rfl⟩, List.mem_append.mpr (Or.inr (List.mem_singleton.mpr rfl))⟩

theorem plugins_buildPDG_nodup (deps : α → List α) (l : List α) :
    (buildPDG deps l)._plugins.Nodup := by
  rw [plugins_buildPDG]
  exact foldl_sadd_nodup List.nodup_nil _

/-- A non-empty adjacency list of the built graph can only sit at a node
that is some registered plugin's dependency; in particular it is a known
plugin. -/
theorem mem_plugins_of_lookupD_ne_nil {deps : α → List α} {l : List α} {u : α}
    (h : lookupD (buildPDG deps l)._graph u ≠ []) :
    u ∈ (buildPDG deps l)._plugins := by
  rw [lookupD_buildPDG] at h
  have : ∃ t ∈ l.map (fun x => List.replicate (cnt u (deps x)) x), t ≠ [] := by
    by_contra hall
    push_neg at hall
    exact h (List.eq_nil_iff_forall_not_mem.mpr (by
      intro a ha
      rcases List.mem_flatten.mp ha with ⟨t, ht, hat⟩
      rw [hall t ht] at hat
      cases hat))
  rcases this with ⟨t, ht, htne⟩
  rcases List.mem_map.mp ht with ⟨x, hx, rfl⟩
  have hc : 0 < cnt u (deps x) := by
    rcases Nat.eq_zero_or_pos (cnt u (deps x)) with h0 | h0
    · rw [h0] at htne; simp at htne
    · exact h0
  exact mem_plugins_buildPDG.mpr ⟨x, hx, Or.inl (mem_of_cnt_pos hc)⟩

/-- Membership in an adjacency list of the built graph means: the member
was registered by an `add_plugin` call and named the key as a dependency. -/
theorem mem_lookupD_buildPDG {deps : α → List α} {l : List α} {d p : α} :
    p ∈ lookupD (buildPDG deps l)._graph d ↔ p ∈ l ∧ d ∈ deps p := by
  rw [lookupD_buildPDG]
  constructor
  · intro h
    rcases List.mem_flatten.mp h with ⟨t, ht, hpt⟩
    rcases List.mem_map.mp ht with ⟨x, hx, hteq⟩
    rw [← hteq] at hpt
    have hpx : p = x := List.eq_of_mem_replicate hpt
    subst hpx
    have hpos : 0 < cnt d (deps p) := by
      rcases Nat.eq_zero_or_pos (cnt d (deps p)) with h0 | h0
      · rw [h0] at hpt; cases hpt
      · exact h0
    exact ⟨hx, mem_of_cnt_pos hpos⟩
  · rintro ⟨hp, hd⟩
    refine List.mem_flatten.mpr
      ⟨List.replicate (cnt d (deps p)) p, List.mem_map.mpr ⟨p, hp, rfl⟩, ?_⟩
    refine List.mem_replicate.mpr ⟨?_, rfl⟩
    have := cnt_pos_of_mem hd
    omega

/-- Every member of an adjacency list of the built graph is a known plugin. -/
theorem adj_mem_plugins {deps : α → List α} {l : List α} {d p : α}
    (h : p ∈ lookupD (buildPDG deps l)._graph d) :
    p ∈ (buildPDG deps l)._plugins := by
  rcases mem_lookupD_buildPDG.mp h with ⟨hp, _⟩
  exact mem_plugins_buildPDG.mpr ⟨p, hp, Or.inr rfl⟩

/-! ### The in-degree total as a sum over any duplicate-free key cover -/

/-- The keys of the association list. -/
def keysOf (g : Graph α) : List α := g.map Prod.fst

theorem lookupD_eq_nil_of_not_mem_keys {g : Graph α} {k : α} (h : k ∉ keysOf g) :
    lookupD g k = [] := by
  induction g with
  | nil => rfl
  | cons e es ih =>
    simp only [keysOf, List.map_cons, List.mem_cons, not_or] at h
    show (if e.1 = k then e.2 else lookupD es k) = []
    rw [if_neg (fun h2 => h.1 h2.symm)]
    exact ih (by simpa [keysOf] using h.2)

theorem mem_keys_of_lookupD_ne_nil {g : Graph α} {k : α} (h : lookupD g k ≠ []) :
    k ∈ keysOf g := by
  by_contra hk
  exact h (lookupD_eq_nil_of_not_mem_keys hk)

theorem sum_map_ite (P : List α) (k : α) (hP : P.Nodup) (hk : k ∈ P)
    (a : Nat) (h : α → Nat) (h0 : h k = 0) :
    (P.map (fun u => if u = k then a else h u)).sum = a + (P.map h).sum := by
  induction P with
  | nil => cases hk
  | cons p ps ih =>
    by_cases hkp : p = k
    · have hps : k ∉ ps := hkp ▸ (List.nodup_cons.mp hP).1
      simp only [List.map_cons, List.sum_cons, if_pos hkp]
      have hmap2 : ps.map (fun u => if u = k then a else h u) = ps.map h := by
        apply List.map_congr_left
        intro u hu
        rw [if_neg (fun (he : u = k) => hps (he ▸ hu))]
      rw [hmap2]
      have hp0 : h p = 0 := by rw [hkp]; exact h0
      rw [hp0]
      omega
    · have hk2 : k ∈ ps := by
        rcases List.mem_cons.mp hk with h1 | h1
        · exact absurd h1.symm hkp
        · exact h1
      simp only [List.map_cons, List.sum_cons, if_neg hkp]
      rw [ih (List.nodup_cons.mp hP).2 hk2]
      omega

theorem sum_entries_eq_sum_cover {g : Graph α} (P : List α)
    (hg : (keysOf g).Nodup) (hP : P.Nodup) (hsub : ∀ u ∈ keysOf g, u ∈ P) (v : α) :
    (g.map (fun e => cnt v e.2)).sum = (P.map (fun u => cnt v (lookupD g u))).sum := by
  induction g with
  | nil =>
    simp only [List.map_nil, List.sum_nil]
    have h : P.map (fun u => cnt v (lookupD ([] : Graph α) u)) = P.map (fun _ => 0) :=
      List.map_congr_left (fun u _ => rfl)
    rw [h]
    simp
  | cons e es ih =>
    have hkeys : keysOf (e :: es) = e.1 :: keysOf es := rfl
    rw [hkeys] at hg hsub
    have he1P : e.1 ∈ P := hsub e.1 (List.mem_cons_self _ _)
    have he1es : e.1 ∉ keysOf es := (List.nodup_cons.mp hg).1
    have hmap : P.map (fun u => cnt v (lookupD (e :: es) u)) =
        P.map (fun u => if u = e.1 then cnt v e.2 else cnt v (lookupD es u)) := by
      apply List.map_congr_left
      intro u _
      show cnt v (if e.1 = u then e.2 else lookupD es u) = _
      by_cases hu : u = e.1
      · rw [if_pos hu.symm, if_pos hu]
      · rw [if_neg (fun h => hu h.symm), if_neg hu]
    rw [List.map_cons, List.sum_cons, hmap,
      sum_map_ite P e.1 hP he1P _ _
        (by rw [lookupD_eq_nil_of_not_mem_keys he1es, cnt_nil]),
      ih (List.nodup_cons.mp hg).2 (fun u hu => hsub u (List.mem_cons_of_mem _ hu))]

theorem inDeg0_eq_sum_cover {g : Graph α} (P : List α)
    (hg : (keysOf g).Nodup) (hP : P.Nodup) (hsub : ∀ u ∈ keysOf g, u ∈ P) (v : α) :
    inDeg0 g v = ((P.map (fun u => cnt v (lookupD g u))).sum : Nat) := by
  rw [inDeg0, sum_entries_eq_sum_cover P hg hP hsub v]

/-- Keys added by the `ddAppend` fold of one `add_plugin` call. -/
theorem keysOf_ddAppend_sub (g : Graph α) (k v : α) :
    ∀ u ∈ keysOf (ddAppend g k v), u ∈ keysOf g ∨ u = k := by
  induction g with
  | nil =>
    intro u hu
    simp only [ddAppend, keysOf, List.map_cons, List.map_nil, List.mem_singleton] at hu
    exact Or.inr hu
  | cons e es ih =>
    intro u hu
    by_cases hek : e.1 = k
    · simp only [ddAppend, if_pos hek, keysOf, List.map_cons, List.mem_cons] at hu
      rcases hu with rfl | hu
      · exact Or.inl (List.mem_cons_self _ _)
      · exact Or.inl (List.mem_cons_of_mem _ hu)
    · simp only [ddAppend, if_neg hek, keysOf, List.map_cons, List.mem_cons] at hu
      rcases hu with rfl | hu
      · exact Or.inl (List.mem_cons_self _ _)
      · rcases ih u hu with h | h
        · exact Or.inl (List.mem_cons_of_mem _ h)
        · exact Or.inr h

theorem keysOf_ddAppend_nodup {g : Graph α} (h : (keysOf g).Nodup) (k v : α) :
    (keysOf (ddAppend g k v)).Nodup := by
  induction g with
  | nil => simp [ddAppend, keysOf]
  | cons e es ih =>
    by_cases hek : e.1 = k
    · simpa only [ddAppend, if_pos hek, keysOf, List.map_cons] using h
    · rw [keysOf, List.map_cons, List.nodup_cons] at h
      simp only [ddAppend, if_neg hek, keysOf, List.map_cons, List.nodup_cons]
      refine ⟨?_, ih h.2⟩
      intro hmem
      rcases keysOf_ddAppend_sub es k v e.1 hmem with hh | hh
      · exact h.1 hh
      · exact hek hh

theorem keysOf_ddTouch_nodup {g : Graph α} (h : (keysOf g).Nodup) (k : α) :
    (keysOf (ddTouch g k)).Nodup := by
  induction g with
  | nil => simp [ddTouch, keysOf]
  | cons e es ih =>
    by_cases hek : e.1 = k
    · simpa only [ddTouch, if_pos hek] using h
    · rw [keysOf, List.map_cons, List.nodup_cons] at h
      simp only [ddTouch, if_neg hek, keysOf, List.map_cons, List.nodup_cons]
      refine ⟨?_, ih h.2⟩
      intro hmem
      -- a key of `ddTouch es k` is a key of `es` or `k` itself
      have : ∀ u ∈ keysOf (ddTouch es k), u ∈ keysOf es ∨ u = k := by
        clear ih hmem h
        induction es with
        | nil =>
          intro u hu
          simp only [ddTouch, keysOf, List.map_cons, List.map_nil, List.mem_singleton] at hu
          exact Or.inr hu
        | cons e2 es2 ih2 =>
          intro u hu
          by_cases he2 : e2.1 = k
          · simp only [ddTouch, if_pos he2] at hu
            exact Or.inl hu
          · simp only [ddTouch, if_neg he2, keysOf, List.map_cons, List.mem_cons] at hu
            rcases hu with rfl | hu
            · exact Or.inl (List.mem_cons_self _ _)
            · rcases ih2 u hu with hh | hh
              · exact Or.inl (List.mem_cons_of_mem _ hh)
              · exact Or.inr hh
      rcases this e.1 hmem with hh | hh
      · exact h.1 hh
      · exact hek hh

theorem keysOf_foldl_ddAppend_nodup (l : List α) (x : α) {g : Graph α}
    (hg : (keysOf g).Nodup) :
    (keysOf (l.foldl (fun gr d => ddAppend gr d x) g)).Nodup := by
  induction l generalizing g with
  | nil => exact hg
  | cons d ds ih =>
    rw [List.foldl_cons]
    exact ih (keysOf_ddAppend_nodup hg d x)

theorem keysOf_buildPDG_nodup (deps : α → List α) (l : List α) :
    (keysOf (buildPDG deps l)._graph).Nodup := by
  suffices h : ∀ g : PDG α, (keysOf g._graph).Nodup →
      (keysOf (l.foldl (add_plugin deps) g)._graph).Nodup by
    exact h PDG.empty (by simp [PDG.empty, keysOf])
  induction l with
  | nil => exact fun g hg => hg
  | cons x xs ih =>
    intro g hg
    rw [List.foldl_cons]
    exact ih _ (keysOf_foldl_ddAppend_nodup (deps x) x hg)

theorem keysOf_foldl_ddAppend_sub (l : List α) (x : α) (g : Graph α) :
    ∀ u ∈ keysOf (l.foldl (fun gr d => ddAppend gr d x) g),
      u ∈ keysOf g ∨ u ∈ l := by
  induction l generalizing g with
  | nil => exact fun u hu => Or.inl hu
  | cons d ds ih =>
    intro u hu
    rw [List.foldl_cons] at hu
    rcases ih (ddAppend g d x) u hu with h | h
    · rcases keysOf_ddAppend_sub g d x u h with h2 | h2
      · exact Or.inl h2
      · exact Or.inr (h2 ▸ List.mem_cons_self _ _)
    · exact Or.inr (List.mem_cons_of_mem _ h)

theorem keysOf_buildPDG_sub_plugins (deps : α → List α) (l : List α) :
    ∀ u ∈ keysOf (buildPDG deps l)._graph, u ∈ (buildPDG deps l)._plugins := by
  suffices h : ∀ g : PDG α, ∀ u ∈ keysOf (l.foldl (add_plugin deps) g)._graph,
      u ∈ keysOf g._graph ∨ ∃ x ∈ l, u ∈ deps x by
    intro u hu
    rcases h PDG.empty u hu with h2 | ⟨x, hx, hd⟩
    · simp [PDG.empty, keysOf] at h2
    · exact mem_plugins_buildPDG.mpr ⟨x, hx, Or.inl hd⟩
  induction l with
  | nil => exact fun g u hu => Or.inl hu
  | cons x xs ih =>
    intro g u hu
    rw [List.foldl_cons] at hu
    rcases ih (add_plugin deps g x) u hu with h | ⟨y, hy, hd⟩
    · rcases keysOf_foldl_ddAppend_sub (deps x) x g._graph u h with h2 | h2
      · exact Or.inl h2
      · exact Or.inr ⟨x, List.mem_cons_self _ _, h2⟩
    · exact Or.inr ⟨y, List.mem_cons_of_mem _ hy, hd⟩

/-! ### List-sum helpers for in-degree accounting -/

theorem sum_map_le_of_cond (S : List α) (K : List α) (f : α → Nat)
    (hS : S.Nodup) (hK : K.Nodup) (h : ∀ u ∈ S, f u ≠ 0 → u ∈ K) :
    (S.map f).sum ≤ (K.map f).sum := by
  induction S generalizing K with
  | nil => simp
  | cons s S' ih =>
    rw [List.map_cons, List.sum_cons]
    by_cases hs : f s = 0
    · rw [hs, Nat.zero_add]
      exact ih K (List.nodup_cons.mp hS).2 hK
        (fun u hu hfu => h u (List.mem_cons_of_mem _ hu) hfu)
    · have hsK : s ∈ K := h s (List.mem_cons_self _ _) hs
      have hperm : K.Perm (s :: K.erase s) := List.perm_cons_erase hsK
      have hsum : (K.map f).sum = f s + ((K.erase s).map f).sum := by
        rw [(hperm.map f).sum_eq, List.map_cons, List.sum_cons]
      rw [hsum]
      have hle := ih (K.erase s) (List.nodup_cons.mp hS).2 (hK.erase s)
        (fun u hu hfu => (List.mem_erase_of_ne
          (fun (he : u = s) => (List.nodup_cons.mp hS).1 (he ▸ hu))).mpr
          (h u (List.mem_cons_of_mem _ hu) hfu))
      omega

theorem sum_map_eq_of_same_mem (S T : List α) (f : α → Nat)
    (hS : S.Nodup) (hT : T.Nodup) (h : ∀ x, x ∈ S ↔ x ∈ T) :
    (S.map f).sum = (T.map f).sum := by
  have hperm : S.Perm T :=
    (List.subperm_of_subset hS (fun x hx => (h x).mp hx)).antisymm
      (List.subperm_of_subset hT (fun x hx => (h x).mpr hx))
  exact (hperm.map f).sum_eq

theorem sum_map_split_filter (P : List α) (bo : List α) (f : α → Nat)
    (hP : P.Nodup) (hbo : bo.Nodup) (hsub : ∀ x ∈ bo, x ∈ P) :
    (P.map f).sum = (bo.map f).sum + ((P.filter (fun u => u ∉ bo)).map f).sum := by
  have hsplit : ((P.filter (fun u => u ∈ bo)) ++ (P.filter (fun u => u ∉ bo))).Perm P := by
    have := List.filter_append_perm (fun u => decide (u ∈ bo)) P
    simpa using this
  have h1 : (P.map f).sum =
      ((P.filter (fun u => u ∈ bo)).map f).sum +
        ((P.filter (fun u => u ∉ bo)).map f).sum := by
    have := (hsplit.map f).sum_eq
    rw [List.map_append, List.sum_append] at this
    omega
  have h2 : ((P.filter (fun u => u ∈ bo)).map f).sum = (bo.map f).sum := by
    apply sum_map_eq_of_same_mem
    · exact hP.filter _
    · exact hbo
    · intro x
      simp only [List.mem_filter, decide_eq_true_eq]
      exact ⟨fun hx => hx.2, fun hx => ⟨hsub x hx, hx⟩⟩
  omega

/-! ### Closed forms for the inner relaxation loop -/

theorem relax_fst (l : List α) (f : α → Int) (q : List α) (v : α) :
    (relax f q l).1 v = f v - cnt v l := by
  induction l generalizing f q with
  | nil => simp [relax]
  | cons n ns ih =>
    rw [relax, ih, cnt_cons]
    by_cases hv : v = n
    · subst hv
      simp only [if_pos rfl]
      push_cast
      ring
    · simp only [if_neg hv, if_neg (show ¬ n = v from fun h => hv h.symm)]
      push_cast
      ring

theorem relax_snd_suffix (l : List α) (f : α → Int) (q : List α) :
    ∃ t, (relax f q l).2 = q ++ t ∧ ∀ a ∈ t, a ∈ l := by
  induction l generalizing f q with
  | nil => exact ⟨[], by simp [relax], by simp⟩
  | cons n ns ih =>
    rw [relax]
    by_cases h : f n - 1 = 0
    · rw [if_pos h]
      rcases ih (fun x => if x = n then f n - 1 else f x) (q ++ [n]) with ⟨t, ht, hsub⟩
      refine ⟨[n] ++ t, ?_, ?_⟩
      · rw [ht, List.append_assoc]
      · intro a ha
        rcases List.mem_append.mp ha with ha | ha
        · exact List.mem_singleton.mp ha ▸ List.mem_cons_self _ _
        · exact List.mem_cons_of_mem _ (hsub a ha)
    · rw [if_neg h]
      rcases ih (fun x => if x = n then f n - 1 else f x) q with ⟨t, ht, hsub⟩
      exact ⟨t, ht, fun a ha => List.mem_cons_of_mem _ (hsub a ha)⟩

theorem relax_append (l₁ l₂ : List α) (f : α → Int) (q : List α) :
    relax f q (l₁ ++ l₂) = relax (relax f q l₁).1 (relax f q l₁).2 l₂ := by
  induction l₁ generalizing f q with
  | nil => simp [relax]
  | cons n ns ih =>
    rw [List.cons_append, relax, relax]
    exact ih _ _

theorem relax_replicate_snd (k : Nat) (n : α) (f : α → Int) (q : List α) :
    (relax f q (List.replicate k n)).2 =
      if 1 ≤ f n ∧ f n ≤ (k : Int) then q ++ [n] else q := by
  induction k generalizing f q with
  | zero =>
    have hcond : ¬ ((1:Int) ≤ f n ∧ f n ≤ (((0:Nat)) : Int)) := by
      rintro ⟨h1, h2⟩
      push_cast at h2
      omega
    rw [List.replicate_zero, if_neg hcond]
    rfl
  | succ k ih =>
    rw [List.replicate_succ, relax]
    by_cases h1 : f n - 1 = 0
    · rw [if_pos h1, ih]
      simp only [eq_self_iff_true, if_true]
      rw [h1]
      rw [if_neg (show ¬ ((1:Int) ≤ 0 ∧ (0:Int) ≤ (k : Int)) from by
        rintro ⟨ha, hb⟩; omega)]
      rw [if_pos (show (1:Int) ≤ f n ∧ f n ≤ ((k+1 : Nat) : Int) from by
        constructor
        · omega
        · push_cast; omega)]
    · rw [if_neg h1, ih]
      simp only [eq_self_iff_true, if_true]
      by_cases h2 : (1:Int) ≤ f n - 1 ∧ f n - 1 ≤ (k : Int)
      · rw [if_pos h2, if_pos (show (1:Int) ≤ f n ∧ f n ≤ ((k+1 : Nat) : Int) from by
          obtain ⟨h2a, h2b⟩ := h2
          constructor
          · omega
          · push_cast; omega)]
      · rw [if_neg h2, if_neg (show ¬ ((1:Int) ≤ f n ∧ f n ≤ ((k+1 : Nat) : Int)) from by
          rintro ⟨ha, hb⟩
          push_cast at hb
          exact h2 ⟨by omega, by omega⟩)]

/-! ### The Kahn loop invariant -/

theorem nodup_append_singleton {l : List α} {a : α} (h : l.Nodup) (ha : a ∉ l) :
    (l ++ [a]).Nodup := by
  refine List.Nodup.append h (List.nodup_singleton a) ?_
  intro x hx hmem
  rw [List.mem_singleton] at hmem
  exact ha (hmem ▸ hx)

/-- Facts about the environment of one `get_build_order` call that hold for
every graph built by `add_plugin` registrations: `P` is the known-plugins
list (duplicate-free), `adj` reads an adjacency list, every adjacency member
and every node with a non-empty adjacency list is known, and `ID` is the
in-degree table computed at the start of the call. -/
structure KEnv (P : List α) (adj : α → List α) (ID : α → Int) : Prop where
  hPnod : P.Nodup
  hvals : ∀ u v, v ∈ adj u → v ∈ P
  hkey : ∀ u, adj u ≠ [] → u ∈ P
  hID : ∀ v, ID v = ((P.map (fun u => cnt v (adj u))).sum : Nat)

theorem KEnv.sum_le {P : List α} {adj : α → List α} {ID : α → Int}
    (henv : KEnv P adj ID) (S : List α) (hS : S.Nodup) (v : α) :
    (((S.map (fun u => cnt v (adj u))).sum : Nat) : Int) ≤ ID v := by
  rw [henv.hID v]
  have h := sum_map_le_of_cond S P (fun u => cnt v (adj u)) hS henv.hPnod
    (fun u _ hne => henv.hkey u (fun hnil => hne (by
      show cnt v (adj u) = 0
      rw [hnil, cnt_nil])))
  exact_mod_cast h

/-- The invariant at the head of each `while queue` iteration: `bo` is the
order built so far, `q` the queue, `f` the in-degree table.  The counter of
`v` equals its initial in-degree minus one decrement per occurrence of `v`
in the adjacency lists of already-popped nodes; `bo ++ q` is duplicate-free
and inside the known set; a known node with a zero counter has been seen;
seen nodes have non-positive counters; and every recorded edge into a seen
node comes from an already-popped node. -/
structure KInv (P : List α) (adj : α → List α) (ID : α → Int)
    (bo q : List α) (f : α → Int) : Prop where
  hcons : ∀ v, f v = ID v - ((bo.map (fun u => cnt v (adj u))).sum : Nat)
  hnod : (bo ++ q).Nodup
  hmem : ∀ v ∈ bo ++ q, v ∈ P
  hzero : ∀ v ∈ P, f v = 0 → v ∈ bo ∨ v ∈ q
  hnonpos : ∀ v, (v ∈ bo ∨ v ∈ q) → f v ≤ 0
  hedge : ∀ d w, w ∈ adj d → (w ∈ bo ∨ w ∈ q) → d ∈ bo

/-- When a neighbour's counter hits zero mid-relaxation, every recorded edge
into it comes from `bo ++ [c]` (the nodes already popped). -/
theorem hit_zero_sources_done (P : List α) (adj : α → List α) (ID : α → Int)
    (henv : KEnv P adj ID) (bo : List α) (c n d : α) (pre l' : List α)
    (hadj : adj c = pre ++ n :: l')
    (hid : ID n = (((bo.map (fun u => cnt n (adj u))).sum : Nat) : Int)
      + (cnt n pre : Int) + 1)
    (hnod : (bo ++ [c]).Nodup)
    (hd : d ∉ bo ++ [c])
    (hw : n ∈ adj d) : False := by
  have hS : ((bo ++ [c]) ++ [d]).Nodup := nodup_append_singleton hnod hd
  have hle := henv.sum_le ((bo ++ [c]) ++ [d]) hS n
  rw [List.map_append, List.map_append, List.sum_append, List.sum_append] at hle
  simp only [List.map_cons, List.map_nil, List.sum_cons, List.sum_nil] at hle
  have hc : cnt n pre + 1 ≤ cnt n (adj c) := by
    rw [hadj, cnt_append, cnt_cons]
    simp
  have hpos : 0 < cnt n (adj d) := cnt_pos_of_mem hw
  rw [hid] at hle
  push_cast at hle
  omega

/-- Relaxing the adjacency list of the popped node `c` preserves the loop
invariant, with `c` moved into the build order. -/
theorem relax_preserves (P : List α) (adj : α → List α) (ID : α → Int)
    (henv : KEnv P adj ID) (bo : List α) (c : α) :
    ∀ (l pre : List α) (f : α → Int) (q : List α),
    adj c = pre ++ l →
    (∀ v, f v = ID v - ((bo.map (fun u => cnt v (adj u))).sum : Nat) - cnt v pre) →
    ((bo ++ [c]) ++ q).Nodup →
    (∀ v ∈ (bo ++ [c]) ++ q, v ∈ P) →
    (∀ v ∈ P, f v = 0 → v ∈ bo ++ [c] ∨ v ∈ q) →
    (∀ v, (v ∈ bo ++ [c] ∨ v ∈ q) → f v ≤ 0) →
    (∀ d w, w ∈ adj d → (w ∈ bo ++ [c] ∨ w ∈ q) → d ∈ bo ++ [c]) →
    (∀ v, (relax f q l).1 v =
      ID v - ((bo.map (fun u => cnt v (adj u))).sum : Nat) - cnt v (pre ++ l)) ∧
    ((bo ++ [c]) ++ (relax f q l).2).Nodup ∧
    (∀ v ∈ (bo ++ [c]) ++ (relax f q l).2, v ∈ P) ∧
    (∀ v ∈ P, (relax f q l).1 v = 0 → v ∈ bo ++ [c] ∨ v ∈ (relax f q l).2) ∧
    (∀ v, (v ∈ bo ++ [c] ∨ v ∈ (relax f q l).2) → (relax f q l).1 v ≤ 0) ∧
    (∀ d w, w ∈ adj d → (w ∈ bo ++ [c] ∨ w ∈ (relax f q l).2) → d ∈ bo ++ [c]) := by
  intro l
  induction l with
  | nil =>
    intro pre f q hadj hcons hnod hmem hzero hnonpos hedge
    refine ⟨?_, hnod, hmem, hzero, hnonpos, hedge⟩
    intro v
    rw [List.append_nil]
    exact hcons v
  | cons n l' ih =>
    intro pre f q hadj hcons hnod hmem hzero hnonpos hedge
    have hadj' : adj c = (pre ++ [n]) ++ l' := by
      rw [hadj, List.append_assoc, List.singleton_append]
    have hnP : n ∈ P := henv.hvals c n (by rw [hadj]; exact List.mem_append_right _ (List.mem_cons_self _ _))
    rw [relax]
    set f₁ : α → Int := fun x => if x = n then f n - 1 else f x with hf₁
    have hcons₁ : ∀ v, f₁ v =
        ID v - ((bo.map (fun u => cnt v (adj u))).sum : Nat) - cnt v (pre ++ [n]) := by
      intro v
      rw [hf₁]
      by_cases hv : v = n
      · subst hv
        simp only [if_pos rfl, cnt_append]
        rw [hcons v]
        have : cnt v [v] = 1 := by simp [cnt_cons]
        rw [this]
        push_cast
        ring
      · simp only [if_neg hv, cnt_append]
        rw [hcons v]
        have : cnt v [n] = 0 := by
          simp [cnt_cons, show ¬ n = v from fun h => hv h.symm]
        rw [this]
        push_cast
        ring
    by_cases hn0 : f n - 1 = 0
    · -- the counter of `n` hits zero: enqueue it
      rw [if_pos hn0]
      have hnotin : n ∉ (bo ++ [c]) ++ q := by
        intro hmemn
        have hle := hnonpos n (by
          rcases List.mem_append.mp hmemn with h | h
          · exact Or.inl h
          · exact Or.inr h)
        omega
      have hnod₁ : ((bo ++ [c]) ++ (q ++ [n])).Nodup := by
        rw [← List.append_assoc]
        exact nodup_append_singleton hnod hnotin
      have hmem₁ : ∀ v ∈ (bo ++ [c]) ++ (q ++ [n]), v ∈ P := by
        intro v hv
        rcases List.mem_append.mp hv with h | h
        · exact hmem v (List.mem_append_left _ h)
        · rcases List.mem_append.mp h with h | h
          · exact hmem v (List.mem_append_right _ h)
          · rw [List.mem_singleton] at h
            exact h ▸ hnP
      have hzero₁ : ∀ v ∈ P, f₁ v = 0 → v ∈ bo ++ [c] ∨ v ∈ q ++ [n] := by
        intro v hvP hv0
        by_cases hv : v = n
        · exact Or.inr (List.mem_append_right _ (by rw [hv]; exact List.mem_singleton.mpr rfl))
        · rw [hf₁] at hv0
          simp only [if_neg hv] at hv0
          rcases hzero v hvP hv0 with h | h
          · exact Or.inl h
          · exact Or.inr (List.mem_append_left _ h)
      have hnonpos₁ : ∀ v, (v ∈ bo ++ [c] ∨ v ∈ q ++ [n]) → f₁ v ≤ 0 := by
        intro v hv
        by_cases hveq : v = n
        · subst hveq
          have heq : f₁ v = f v - 1 := by rw [hf₁]; simp
          rw [heq]
          omega
        · have heq : f₁ v = f v := by rw [hf₁]; simp [hveq]
          rw [heq]
          apply hnonpos
          rcases hv with h | h
          · exact Or.inl h
          · rcases List.mem_append.mp h with h | h
            · exact Or.inr h
            · rw [List.mem_singleton] at h
              exact absurd h hveq
      have hedge₁ : ∀ d w, w ∈ adj d → (w ∈ bo ++ [c] ∨ w ∈ q ++ [n]) → d ∈ bo ++ [c] := by
        intro d w hw hmemw
        by_cases hweq : w = n
        · subst hweq
          by_contra hd
          refine hit_zero_sources_done P adj ID henv bo c w d pre l' hadj ?_
            (List.nodup_append.mp hnod).1 hd hw
          have := hcons w
          omega
        · apply hedge d w hw
          rcases hmemw with h | h
          · exact Or.inl h
          · rcases List.mem_append.mp h with h | h
            · exact Or.inr h
            · rw [List.mem_singleton] at h
              exact absurd h hweq
      have hres := ih (pre ++ [n]) f₁ (q ++ [n]) hadj' hcons₁ hnod₁ hmem₁ hzero₁ hnonpos₁ hedge₁
      have hl : pre ++ [n] ++ l' = pre ++ n :: l' := by simp
      rw [← hl]
      exact hres
    · -- the counter of `n` stays non-zero: queue unchanged
      rw [if_neg hn0]
      have hnod₁ : ((bo ++ [c]) ++ q).Nodup := hnod
      have hzero₁ : ∀ v ∈ P, f₁ v = 0 → v ∈ bo ++ [c] ∨ v ∈ q := by
        intro v hvP hv0
        by_cases hv : v = n
        · rw [hf₁] at hv0
          rw [hv] at hv0
          simp only [if_pos rfl] at hv0
          exact absurd hv0 hn0
        · rw [hf₁] at hv0
          simp only [if_neg hv] at hv0
          exact hzero v hvP hv0
      have hnonpos₁ : ∀ v, (v ∈ bo ++ [c] ∨ v ∈ q) → f₁ v ≤ 0 := by
        intro v hv
        by_cases hveq : v = n
        · subst hveq
          have heq : f₁ v = f v - 1 := by rw [hf₁]; simp
          rw [heq]
          have := hnonpos v hv
          omega
        · have heq : f₁ v = f v := by rw [hf₁]; simp [hveq]
          rw [heq]
          exact hnonpos v hv
      have hres := ih (pre ++ [n]) f₁ q hadj' hcons₁ hnod₁ hmem hzero₁ hnonpos₁ hedge
      have hl : pre ++ [n] ++ l' = pre ++ n :: l' := by simp
      rw [← hl]
      exact hres

theorem before_head_append {bo t : List α} {d c : α} (hd : d ∈ bo) :
    Before (bo ++ c :: t) d c := by
  rcases List.mem_iff_get?.mp hd with ⟨i, hi⟩
  have hilt : i < bo.length := by
    by_contra h
    push_neg at h
    rw [List.get?_eq_none.mpr h] at hi
    cases hi
  refine ⟨i, bo.length, hilt, ?_, ?_⟩
  · rw [List.get?_append hilt]
    exact hi
  · rw [List.get?_append_right (Nat.le_refl _)]
    simp

/-- The main loop theorem: from an invariant state with enough fuel, the
pure Kahn loop drains the queue; the result extends `bo`, still satisfies
the invariant (with an empty queue), and every recorded edge into a node of
the result either points into the old prefix or is respected by the order. -/
theorem kahnP_main (P : List α) (adj : α → List α) (ID : α → Int)
    (henv : KEnv P adj ID) :
    ∀ (fuel : Nat) (q bo : List α) (f : α → Int),
    KInv P adj ID bo q f →
    P.length ≤ bo.length + fuel →
    ∃ Δ f', kahnP adj fuel q bo f = bo ++ Δ ∧
      KInv P adj ID (bo ++ Δ) [] f' ∧
      (∀ d w, w ∈ adj d → w ∈ bo ++ Δ →
        w ∈ bo ∨ Before (bo ++ Δ) d w) := by
  intro fuel
  induction fuel with
  | zero =>
    intro q bo f hinv hfuel
    have hqnil : q = [] := by
      have hsub : (bo ++ q).Subperm P :=
        List.subperm_of_subset hinv.hnod (fun x hx => hinv.hmem x hx)
      have := hsub.length_le
      rw [List.length_append] at this
      have : q.length = 0 := by omega
      exact List.length_eq_zero.mp this
    subst hqnil
    refine ⟨[], f, by rw [List.append_nil]; rfl, ?_, ?_⟩
    · rw [List.append_nil]
      exact hinv
    · intro d w _ hw
      rw [List.append_nil] at hw
      exact Or.inl hw
  | succ fuel ih =>
    intro q bo f hinv hfuel
    match q with
    | [] =>
      refine ⟨[], f, by rw [List.append_nil]; rfl, ?_, ?_⟩
      · rw [List.append_nil]
        exact hinv
      · intro d w _ hw
        rw [List.append_nil] at hw
        exact Or.inl hw
    | c :: rest =>
      have hstep := relax_preserves P adj ID henv bo c (adj c) [] f rest
        (List.nil_append _).symm
        (by
          intro v
          rw [cnt_nil]
          simp only [Nat.cast_zero, sub_zero]
          exact hinv.hcons v)
        (by
          have := hinv.hnod
          rwa [List.append_cons] at this)
        (by
          intro v hv
          apply hinv.hmem
          rw [List.append_cons]
          exact hv)
        (by
          intro v hvP hv0
          rcases hinv.hzero v hvP hv0 with h | h
          · exact Or.inl (List.mem_append_left _ h)
          · rcases List.mem_cons.mp h with rfl | h
            · exact Or.inl (List.mem_append_right _ (List.mem_singleton.mpr rfl))
            · exact Or.inr h)
        (by
          intro v hv
          apply hinv.hnonpos
          rcases hv with h | h
          · rcases List.mem_append.mp h with h | h
            · exact Or.inl h
            · rw [List.mem_singleton] at h
              exact Or.inr (h ▸ List.mem_cons_self _ _)
          · exact Or.inr (List.mem_cons_of_mem _ h))
        (by
          intro d w hw hmemw
          apply List.mem_append_left
          apply hinv.hedge d w hw
          rcases hmemw with h | h
          · rcases List.mem_append.mp h with h | h
            · exact Or.inl h
            · rw [List.mem_singleton] at h
              exact Or.inr (h ▸ List.mem_cons_self _ _)
          · exact Or.inr (List.mem_cons_of_mem _ h))
      obtain ⟨hc1, hc2, hc3, hc4, hc5, hc6⟩ := hstep
      set f₁ := (relax f rest (adj c)).1 with hf₁def
      set q₁ := (relax f rest (adj c)).2 with hq₁def
      have hinv₁ : KInv P adj ID (bo ++ [c]) q₁ f₁ := by
        refine ⟨?_, hc2, hc3, hc4, hc5, hc6⟩
        intro v
        rw [hc1 v, List.nil_append, List.map_append, List.sum_append]
        simp only [List.map_cons, List.map_nil, List.sum_cons, List.sum_nil]
        push_cast
        ring
      have hfuel₁ : P.length ≤ (bo ++ [c]).length + fuel := by
        rw [List.length_append]
        simp only [List.length_cons, List.length_nil]
        omega
      rcases ih q₁ (bo ++ [c]) f₁ hinv₁ hfuel₁ with ⟨Δ', f', heq, hinv', hord⟩
      refine ⟨[c] ++ Δ', f', ?_, ?_, ?_⟩
      · rw [kahnP]
        show kahnP adj fuel q₁ (bo ++ [c]) f₁ = _
        rw [heq, ← List.append_assoc]
      · rw [← List.append_assoc]
        exact hinv'
      · intro d w hw hmemw
        rw [← List.append_assoc] at hmemw
        rcases hord d w hw hmemw with h | h
        · rcases List.mem_append.mp h with h | h
          · exact Or.inl h
          · rw [List.mem_singleton] at h
            subst h
            right
            have hd : d ∈ bo := hinv.hedge d w hw (Or.inr (List.mem_cons_self _ _))
            rw [List.singleton_append]
            exact before_head_append hd
        · right
          rw [← List.append_assoc]
          exact h

/-! ### Relating the mutating loop to the pure loop -/

theorem kahnP_congr (adj1 adj2 : α → List α) (h : ∀ k, adj1 k = adj2 k) :
    ∀ (fuel : Nat) (q bo : List α) (f : α → Int),
    kahnP adj1 fuel q bo f = kahnP adj2 fuel q bo f := by
  intro fuel
  induction fuel with
  | zero => intro q bo f; rfl
  | succ fuel ih =>
    intro q bo f
    match q with
    | [] => rfl
    | c :: rest =>
      rw [kahnP, kahnP, h c]
      exact ih _ _ _

theorem kahn_fst_eq_kahnP :
    ∀ (fuel : Nat) (g : Graph α) (q bo : List α) (f : α → Int),
    (kahn fuel g q bo f).1 = kahnP (lookupD g) fuel q bo f := by
  intro fuel
  induction fuel with
  | zero => intro g q bo f; rfl
  | succ fuel ih =>
    intro g q bo f
    match q with
    | [] => rfl
    | c :: rest =>
      rw [kahn, kahnP, lookupD_ddTouch]
      rw [ih]
      exact kahnP_congr _ _ (fun k => lookupD_ddTouch g c k) _ _ _ _

/-- The `defaultdict` reads during the loop change no stored list. -/
theorem kahn_snd_lookupD :
    ∀ (fuel : Nat) (g : Graph α) (q bo : List α) (f : α → Int) (k : α),
    lookupD (kahn fuel g q bo f).2 k = lookupD g k := by
  intro fuel
  induction fuel with
  | zero => intro g q bo f k; rfl
  | succ fuel ih =>
    intro g q bo f k
    match q with
    | [] => rfl
    | c :: rest =>
      rw [kahn]
      show lookupD (kahn fuel (ddTouch g c) _ _ _).2 k = _
      rw [ih, lookupD_ddTouch]

theorem keysOf_ddTouch_sub (g : Graph α) (k : α) :
    ∀ u ∈ keysOf (ddTouch g k), u ∈ keysOf g ∨ u = k := by
  induction g with
  | nil =>
    intro u hu
    simp only [ddTouch, keysOf, List.map_cons, List.map_nil, List.mem_singleton] at hu
    exact Or.inr hu
  | cons e es ih =>
    intro u hu
    by_cases hek : e.1 = k
    · simp only [ddTouch, if_pos hek] at hu
      exact Or.inl hu
    · simp only [ddTouch, if_neg hek, keysOf, List.map_cons, List.mem_cons] at hu
      rcases hu with rfl | hu
      · exact Or.inl (List.mem_cons_self _ _)
      · rcases ih u hu with hh | hh
        · exact Or.inl (List.mem_cons_of_mem _ hh)
        · exact Or.inr hh

theorem kahn_snd_keys_nodup :
    ∀ (fuel : Nat) (g : Graph α) (q bo : List α) (f : α → Int),
    (keysOf g).Nodup → (keysOf (kahn fuel g q bo f).2).Nodup := by
  intro fuel
  induction fuel with
  | zero => intro g q bo f hg; exact hg
  | succ fuel ih =>
    intro g q bo f hg
    match q with
    | [] => exact hg
    | c :: rest =>
      rw [kahn]
      exact ih (ddTouch g c) _ _ _ (keysOf_ddTouch_nodup hg c)

theorem kahn_snd_keys_sub (P : List α) :
    ∀ (fuel : Nat) (g : Graph α) (q bo : List α) (f : α → Int),
    (∀ u ∈ keysOf g, u ∈ P) →
    (∀ v ∈ q, v ∈ P) →
    (∀ u v, v ∈ lookupD g u → v ∈ P) →
    ∀ u ∈ keysOf (kahn fuel g q bo f).2, u ∈ P := by
  intro fuel
  induction fuel with
  | zero => intro g q bo f hk _ _; exact hk
  | succ fuel ih =>
    intro g q bo f hk hq hvals
    match q with
    | [] => exact hk
    | c :: rest =>
      rw [kahn]
      refine ih (ddTouch g c) _ _ _ ?_ ?_ ?_
      · intro u hu
        rcases keysOf_ddTouch_sub g c u hu with h | h
        · exact hk u h
        · exact h ▸ hq c (List.mem_cons_self _ _)
      · intro v hv
        rcases relax_snd_suffix (lookupD (ddTouch g c) c) f rest with ⟨t, ht, hsubt⟩
        rw [ht] at hv
        rcases List.mem_append.mp hv with h | h
        · exact hq v (List.mem_cons_of_mem _ h)
        · have := hsubt v h
          rw [lookupD_ddTouch] at this
          exact hvals c v this
      · intro u v hv
        rw [lookupD_ddTouch] at hv
        exact hvals u v hv

/-! ### The seed state and the environment of a built graph -/

theorem kinv_seed (P : List α) (adj : α → List α) (ID : α → Int)
    (henv : KEnv P adj ID) :
    KInv P adj ID [] (P.filter (fun v => ID v = 0)) ID := by
  refine ⟨?_, ?_, ?_, ?_, ?_, ?_⟩
  · intro v
    simp
  · rw [List.nil_append]
    exact henv.hPnod.filter _
  · intro v hv
    rw [List.nil_append] at hv
    exact (List.mem_filter.mp hv).1
  · intro v hvP hv0
    right
    exact List.mem_filter.mpr ⟨hvP, by simpa using hv0⟩
  · intro v hv
    rcases hv with h | h
    · cases h
    · have h2 := (List.mem_filter.mp h).2
      simp only [decide_eq_true_eq] at h2
      omega
  · intro d w hw hmem
    rcases hmem with h | h
    · cases h
    · exfalso
      have hw0 : ID w = 0 := by simpa using (List.mem_filter.mp h).2
      have hle := henv.sum_le [d] (List.nodup_singleton d) w
      simp only [List.map_cons, List.map_nil, List.sum_cons, List.sum_nil] at hle
      have hpos := cnt_pos_of_mem hw
      rw [hw0] at hle
      push_cast at hle
      omega

theorem kenv_buildPDG (deps : α → List α) (l : List α) :
    KEnv (buildPDG deps l)._plugins (lookupD (buildPDG deps l)._graph)
      (inDeg0 (buildPDG deps l)._graph) :=
  ⟨plugins_buildPDG_nodup deps l,
   fun _ v hv => adj_mem_plugins hv,
   fun _ h => mem_plugins_of_lookupD_ne_nil h,
   fun v => inDeg0_eq_sum_cover _ (keysOf_buildPDG_nodup deps l)
     (plugins_buildPDG_nodup deps l) (keysOf_buildPDG_sub_plugins deps l) v⟩

/-! ### From a stuck final state to a cycle -/

theorem exists_ne_zero_of_sum_ne_zero {S : List α} {g : α → Nat}
    (h : (S.map g).sum ≠ 0) : ∃ u ∈ S, g u ≠ 0 := by
  induction S with
  | nil => simp at h
  | cons a S ih =>
    rw [List.map_cons, List.sum_cons] at h
    by_cases ha : g a = 0
    · rw [ha, Nat.zero_add] at h
      rcases ih h with ⟨u, hu, hgu⟩
      exact ⟨u, List.mem_cons_of_mem _ hu, hgu⟩
    · exact ⟨a, List.mem_cons_self _ _, ha⟩

theorem cycle_of_predecessors {R : List α} (E : α → α → Prop) (hne : R ≠ [])
    (hpred : ∀ v ∈ R, ∃ u ∈ R, E u v) :
    ∃ z, Relation.TransGen E z z := by
  classical
  have hpick : ∀ x : {v // v ∈ R.toFinset}, ∃ y : {v // v ∈ R.toFinset}, E y.val x.val := by
    rintro ⟨x, hx⟩
    rcases hpred x (List.mem_toFinset.mp hx) with ⟨u, hu, hE⟩
    exact ⟨⟨u, List.mem_toFinset.mpr hu⟩, hE⟩
  choose F hF using hpick
  rcases List.exists_mem_of_ne_nil R hne with ⟨v0, hv0⟩
  set x0 : {v // v ∈ R.toFinset} := ⟨v0, List.mem_toFinset.mpr hv0⟩ with hx0
  have hchain : ∀ (k : Nat) (x : {v // v ∈ R.toFinset}),
      Relation.TransGen E (F^[k+1] x).val x.val := by
    intro k
    induction k with
    | zero =>
      intro x
      rw [Function.iterate_one]
      exact Relation.TransGen.single (hF x)
    | succ k ihk =>
      intro x
      rw [Function.iterate_succ_apply' F (k+1) x]
      exact Relation.TransGen.head (hF (F^[k+1] x)) (ihk x)
  have hfin : ∃ i j, i ≠ j ∧ F^[i] x0 = F^[j] x0 :=
    Finite.exists_ne_map_eq_of_infinite (fun n => F^[n] x0)
  rcases hfin with ⟨i, j, hne2, heq⟩
  have hmain : ∀ i j : Nat, i < j → F^[i] x0 = F^[j] x0 →
      ∃ z, Relation.TransGen E z z := by
    intro i j hlt heq
    refine ⟨(F^[i] x0).val, ?_⟩
    have hj : F^[j] x0 = F^[(j - i - 1) + 1] (F^[i] x0) := by
      rw [← Function.iterate_add_apply]
      congr 1
      omega
    have := hchain (j - i - 1) (F^[i] x0)
    rw [← hj, ← heq] at this
    exact this
  rcases Nat.lt_or_ge i j with hlt | hge
  · exact hmain i j hlt heq
  · have hlt : j < i := by omega
    exact hmain j i hlt heq.symm

/-! ### Order relation facts -/

theorem before_mem_left {r : List α} {d p : α} (h : Before r d p) : d ∈ r := by
  rcases h with ⟨i, _, _, hi, _⟩
  exact List.get?_mem hi

theorem before_trans {r : List α} (hnod : r.Nodup) {a b c : α}
    (h1 : Before r a b) (h2 : Before r b c) : Before r a c := by
  rcases h1 with ⟨i, j, hij, ha, hb⟩
  rcases h2 with ⟨j', k, hjk, hb', hc⟩
  have hjlt : j < r.length := by
    rcases List.get?_eq_some.mp hb with ⟨h, _⟩
    exact h
  have hjj : j = j' := List.get?_inj hjlt hnod (hb.trans hb'.symm)
  exact ⟨i, k, by omega, ha, hc⟩

theorem before_irrefl {r : List α} (hnod : r.Nodup) (a : α) : ¬ Before r a a := by
  rintro ⟨i, j, hij, ha, ha'⟩
  have hilt : i < r.length := by
    rcases List.get?_eq_some.mp ha with ⟨h, _⟩
    exact h
  have := List.get?_inj hilt hnod (ha.trans ha'.symm)
  omega

/-! ### Full-run characterization for graphs built by `add_plugin` -/

/-- A complete description of one `get_build_order` call on a built graph:
the loop output `bo`, the final invariant state, and the edge-ordering
guarantee. -/
theorem buildPDG_run (deps : α → List α) (l : List α) :
    ∃ bo f',
      (get_build_order (buildPDG deps l)).1 =
        (if bo.length = (buildPDG deps l)._plugins.length then Except.ok bo
         else Except.error "Cycle detected in dependencies!") ∧
      KInv (buildPDG deps l)._plugins (lookupD (buildPDG deps l)._graph)
        (inDeg0 (buildPDG deps l)._graph) bo [] f' ∧
      (∀ d w, w ∈ lookupD (buildPDG deps l)._graph d → w ∈ bo → Before bo d w) := by
  have henv := kenv_buildPDG deps l
  have hseed := kinv_seed (buildPDG deps l)._plugins
    (lookupD (buildPDG deps l)._graph) (inDeg0 (buildPDG deps l)._graph) henv
  rcases kahnP_main _ _ _ henv (buildPDG deps l)._plugins.length
      ((buildPDG deps l)._plugins.filter (fun v => inDeg0 (buildPDG deps l)._graph v = 0))
      [] (inDeg0 (buildPDG deps l)._graph) hseed (by simp) with ⟨Δ, f', heq, hinv, hord⟩
  rw [List.nil_append] at heq hinv
  refine ⟨Δ, f', ?_, hinv, ?_⟩
  · show (if (kahn (buildPDG deps l)._plugins.length (buildPDG deps l)._graph
        ((buildPDG deps l)._plugins.filter
          (fun v => inDeg0 (buildPDG deps l)._graph v = 0)) []
        (inDeg0 (buildPDG deps l)._graph)).1.length
          = (buildPDG deps l)._plugins.length
      then Except.ok (kahn (buildPDG deps l)._plugins.length (buildPDG deps l)._graph
        ((buildPDG deps l)._plugins.filter
          (fun v => inDeg0 (buildPDG deps l)._graph v = 0)) []
        (inDeg0 (buildPDG deps l)._graph)).1
      else Except.error "Cycle detected in dependencies!") = _
    rw [kahn_fst_eq_kahnP, heq]
  · intro d w hw hmem
    have h := hord d w hw (by rwa [List.nil_append])
    rw [List.nil_append] at h
    rcases h with h | h
    · cases h
    · exact h

/-- From an `ok` result: the returned order is a permutation of the known
plugins and respects every recorded edge. -/
theorem ok_result_props (deps : α → List α) (l : List α) {bo : List α}
    (h : (get_build_order (buildPDG deps l)).1 = Except.ok bo) :
    bo.Perm (buildPDG deps l)._plugins ∧
    (∀ d w, w ∈ lookupD (buildPDG deps l)._graph d → w ∈ bo → Before bo d w) := by
  rcases buildPDG_run deps l with ⟨Δ, f', heq, hinv, hord⟩
  rw [heq] at h
  by_cases hlen : Δ.length = (buildPDG deps l)._plugins.length
  · rw [if_pos hlen] at h
    have hΔbo : Δ = bo := by
      injection h
    subst hΔbo
    have hnodΔ : Δ.Nodup := by
      have := hinv.hnod
      rwa [List.append_nil] at this
    have hsubΔ : ∀ v ∈ Δ, v ∈ (buildPDG deps l)._plugins := by
      intro v hv
      exact hinv.hmem v (by rwa [List.append_nil])
    have hsp : Δ.Subperm (buildPDG deps l)._plugins :=
      List.subperm_of_subset hnodΔ hsubΔ
    exact ⟨hsp.perm_of_length_le (by omega), hord⟩
  · rw [if_neg hlen] at h
    cases h

/-- Cyclic reachability in the recorded graph yields a strict order
violation inside any complete edge-respecting list. -/
theorem transGen_before {g : Graph α} {Δ : List α}
    (hnod : Δ.Nodup)
    (hord : ∀ d w, w ∈ lookupD g d → w ∈ Δ → Before Δ d w)
    (hcomp : ∀ d w, w ∈ lookupD g d → w ∈ Δ) :
    ∀ a b, Relation.TransGen (EdgeOf g) a b → Before Δ a b := by
  intro a b htg
  induction htg with
  | single h => exact hord _ _ h (hcomp _ _ h)
  | tail _ h ih => exact before_trans hnod ih (hord _ _ h (hcomp _ _ h))

/-- If the recorded graph of a built registry has a cycle, `get_build_order`
raises `ValueError("Cycle detected in dependencies!")`. -/
theorem error_of_cycle (deps : α → List α) (l : List α)
    (hcyc : HasCycle (buildPDG deps l)._graph) :
    (get_build_order (buildPDG deps l)).1 =
      Except.error "Cycle detected in dependencies!" := by
  rcases buildPDG_run deps l with ⟨Δ, f', heq, hinv, hord⟩
  rw [heq]
  by_cases hlen : Δ.length = (buildPDG deps l)._plugins.length
  · exfalso
    have hnodΔ : Δ.Nodup := by
      have := hinv.hnod
      rwa [List.append_nil] at this
    have hsubΔ : ∀ v ∈ Δ, v ∈ (buildPDG deps l)._plugins := by
      intro v hv
      exact hinv.hmem v (by rwa [List.append_nil])
    have hperm : Δ.Perm (buildPDG deps l)._plugins :=
      (List.subperm_of_subset hnodΔ hsubΔ).perm_of_length_le (by omega)
    have hcomp : ∀ d w, w ∈ lookupD (buildPDG deps l)._graph d → w ∈ Δ := by
      intro d w hw
      exact hperm.mem_iff.mpr (adj_mem_plugins hw)
    rcases hcyc with ⟨z, hz⟩
    exact before_irrefl hnodΔ z (transGen_before hnodΔ hord hcomp z z hz)
  · rw [if_neg hlen]

/-- An acyclic built registry resolves: `get_build_order` returns `ok`. -/
theorem ok_of_acyclic (deps : α → List α) (l : List α)
    (hacyc : ¬ HasCycle (buildPDG deps l)._graph) :
    ∃ bo, (get_build_order (buildPDG deps l)).1 = Except.ok bo := by
  rcases buildPDG_run deps l with ⟨Δ, f', heq, hinv, _⟩
  have hnodΔ : Δ.Nodup := by
    have := hinv.hnod
    rwa [List.append_nil] at this
  have hsubΔ : ∀ v ∈ Δ, v ∈ (buildPDG deps l)._plugins := by
    intro v hv
    exact hinv.hmem v (by rwa [List.append_nil])
  have hcompl : ∀ v ∈ (buildPDG deps l)._plugins, v ∈ Δ := by
    by_contra hin
    push_neg at hin
    rcases hin with ⟨v0, hv0P, hv0Δ⟩
    set R := (buildPDG deps l)._plugins.filter (fun v => v ∉ Δ) with hR
    have hRne : R ≠ [] := by
      intro hnil
      have : v0 ∈ R := List.mem_filter.mpr ⟨hv0P, by simpa using hv0Δ⟩
      rw [hnil] at this
      cases this
    have hpred : ∀ v ∈ R, ∃ u ∈ R, v ∈ lookupD (buildPDG deps l)._graph u := by
      intro v hv
      have hvP : v ∈ (buildPDG deps l)._plugins := (List.mem_filter.mp hv).1
      have hvΔ : v ∉ Δ := by simpa using (List.mem_filter.mp hv).2
      have hne0 : f' v ≠ 0 := by
        intro h0
        rcases hinv.hzero v hvP h0 with h | h
        · exact hvΔ h
        · cases h
      have hval : f' v = (((R.map
          (fun u => cnt v (lookupD (buildPDG deps l)._graph u))).sum : Nat) : Int) := by
        rw [hinv.hcons v, (kenv_buildPDG deps l).hID v]
        rw [sum_map_split_filter (buildPDG deps l)._plugins Δ
          (fun u => cnt v (lookupD (buildPDG deps l)._graph u))
          (plugins_buildPDG_nodup deps l) hnodΔ hsubΔ]
        push_cast
        ring
      have hsumne : (R.map (fun u => cnt v (lookupD (buildPDG deps l)._graph u))).sum ≠ 0 := by
        intro h0
        rw [h0] at hval
        exact hne0 (by rw [hval]; rfl)
      rcases exists_ne_zero_of_sum_ne_zero hsumne with ⟨u, hu, hgu⟩
      exact ⟨u, hu, mem_of_cnt_pos (Nat.pos_of_ne_zero hgu)⟩
    rcases cycle_of_predecessors
      (fun a b => b ∈ lookupD (buildPDG deps l)._graph a) hRne hpred with ⟨z, hz⟩
    exact hacyc ⟨z, hz⟩
  have hlen : Δ.length = (buildPDG deps l)._plugins.length := by
    have h1 := (List.subperm_of_subset hnodΔ hsubΔ).length_le
    have h2 := (List.subperm_of_subset (plugins_buildPDG_nodup deps l) hcompl).length_le
    omega
  exact ⟨Δ, by rw [heq, if_pos hlen]⟩

/-! ### Helpers for the double-registration simulation -/

theorem sum_map_mono {S : List α} {g h : α → Nat} (hle : ∀ u ∈ S, g u ≤ h u) :
    (S.map g).sum ≤ (S.map h).sum := by
  induction S with
  | nil => simp
  | cons a S ih =>
    simp only [List.map_cons, List.sum_cons]
    have h1 := hle a (List.mem_cons_self _ _)
    have h2 := ih (fun u hu => hle u (List.mem_cons_of_mem _ hu))
    omega

theorem sum_map_le_of_mem {S : List α} {g : α → Nat} {c : α} (hc : c ∈ S) :
    g c ≤ (S.map g).sum := by
  induction S with
  | nil => cases hc
  | cons a S ih =>
    simp only [List.map_cons, List.sum_cons]
    rcases List.mem_cons.mp hc with rfl | hc2
    · omega
    · have := ih hc2
      omega

/-- Popping `c` splits the not-yet-popped sum: the filter over `bo ++ [c]`
drops exactly the `c` term. -/
theorem filter_not_mem_pop (P : List α) (bo : List α) (c : α) (g : α → Nat)
    (hP : P.Nodup) (hcP : c ∈ P) (hc : c ∉ bo) :
    ((P.filter (fun u => u ∉ bo)).map g).sum =
      g c + ((P.filter (fun u => u ∉ bo ++ [c])).map g).sum := by
  have hmemiff : ∀ u, u ∈ P.filter (fun u => u ∉ bo) ↔
      u ∈ c :: P.filter (fun u => u ∉ bo ++ [c]) := by
    intro u
    constructor
    · intro hu
      have huP := (List.mem_filter.mp hu).1
      have hubo : u ∉ bo := by simpa using (List.mem_filter.mp hu).2
      by_cases huc : u = c
      · exact huc ▸ List.mem_cons_self _ _
      · refine List.mem_cons_of_mem _ (List.mem_filter.mpr ⟨huP, ?_⟩)
        simp only [decide_eq_true_eq]
        intro hmem
        rcases List.mem_append.mp hmem with h | h
        · exact hubo h
        · exact huc (List.mem_singleton.mp h)
    · intro hu
      rcases List.mem_cons.mp hu with rfl | hu
      · exact List.mem_filter.mpr ⟨hcP, by simpa using hc⟩
      · have huP := (List.mem_filter.mp hu).1
        have hu2 : u ∉ bo ++ [c] := by simpa using (List.mem_filter.mp hu).2
        refine List.mem_filter.mpr ⟨huP, ?_⟩
        simp only [decide_eq_true_eq]
        intro hmem
        exact hu2 (List.mem_append.mpr (Or.inl hmem))
  have hnod1 : (P.filter (fun u => u ∉ bo)).Nodup := hP.filter _
  have hnod2 : (c :: P.filter (fun u => u ∉ bo ++ [c])).Nodup := by
    rw [List.nodup_cons]
    refine ⟨?_, hP.filter _⟩
    intro hmem
    have := (List.mem_filter.mp hmem).2
    simp at this
  have := sum_map_eq_of_same_mem _ _ g hnod1 hnod2 hmemiff
  rw [this, List.map_cons, List.sum_cons]

theorem getLast?_replicate_self (x : α) (k : Nat) (hk : 1 ≤ k) :
    (List.replicate k x).getLast? = some x := by
  induction k with
  | zero => omega
  | succ k ih =>
    rw [List.replicate_succ]
    rcases Nat.eq_zero_or_pos k with h0 | h0
    · subst h0
      rfl
    · rw [show (x :: List.replicate k x) = [x] ++ List.replicate k x from rfl,
        List.getLast?_append, ih h0]
      rfl

/-- In `F ++ x^k` (`k ≥ 1`), whatever follows an occurrence of `x` either
contains another `x` or is empty: the final run of `x`'s sits at the end. -/
theorem tail_split_replicate (F : List α) (x : α) (k : Nat) (hk : 1 ≤ k) :
    ∀ a b, F ++ List.replicate k x = a ++ x :: b → x ∈ b ∨ b = [] := by
  intro a b h
  by_cases hb : b = []
  · exact Or.inr hb
  · left
    have h1 : (F ++ List.replicate k x).getLast? = some x := by
      rw [List.getLast?_append, getLast?_replicate_self x k hk]
      rfl
    rw [h, List.append_cons, List.getLast?_append] at h1
    rcases hbl : b.getLast? with _ | y
    · exact absurd (List.getLast?_eq_none_iff.mp hbl) hb
    · rw [hbl, Option.or_some] at h1
      have hyx : y = x := by
        injection h1
      exact hyx ▸ List.mem_of_getLast?_eq_some hbl

theorem relax_congr (f g : α → Int) (h : ∀ v, f v = g v) :
    ∀ (l : List α) (q : List α), relax f q l = relax g q l := by
  intro l
  induction l with
  | nil =>
    intro q
    rw [show f = g from funext h]
  | cons n ns ih =>
    intro q
    rw [relax, relax, h n]
    have heq : (fun v => if v = n then g n - 1 else f v)
        = (fun v => if v = n then g n - 1 else g v) := by
      funext v
      by_cases hv : v = n
      · simp [hv]
      · simp [hv, h v]
    rw [heq]

/-- The queue-level simulation for the shared part of one adjacency list:
running the relaxation with the counter of `x` shifted up by `e + m`
(`e` doubled copies waiting in other unpopped lists, `m` those at the end
of this one) yields the same queue, except that when the unshifted run
retires `x` exactly at the end of the list (which forces `e = 0`), the
shifted run has not enqueued `x` yet. -/
theorem relax_sim_common (x : α) (m : Nat) (e : Int) (he : 0 ≤ e) :
    ∀ (l : List α) (f1 f2 : α → Int) (q : List α),
    (∀ v, f2 v = f1 v + (if v = x then e + (m : Int) else 0)) →
    (∀ a b, l = a ++ x :: b → 1 ≤ m → (x ∈ b ∨ b = [])) →
    ((cnt x l : Int) + e ≤ f1 x) →
    ((relax f2 q l).2 = (relax f1 q l).2 ∧
      (1 ≤ m → (cnt x l = 0 ∨ (relax f1 q l).1 x ≠ 0))) ∨
    ((relax f1 q l).2 = (relax f2 q l).2 ++ [x] ∧ e = 0 ∧ 1 ≤ m ∧
      (relax f1 q l).1 x = 0) := by
  intro l
  induction l with
  | nil =>
    intro f1 f2 q hf2 _ hB
    left
    exact ⟨rfl, fun _ => Or.inl rfl⟩
  | cons n l' ih =>
    intro f1 f2 q hf2 htail hB
    rw [relax, relax]
    have htail' : ∀ a b, l' = a ++ x :: b → 1 ≤ m → (x ∈ b ∨ b = []) := by
      intro a b hab hm
      exact htail (n :: a) b (by rw [hab]; rfl) hm
    have hf2rel : ∀ v, (fun v => if v = n then f2 n - 1 else f2 v) v
        = (fun v => if v = n then f1 n - 1 else f1 v) v
          + (if v = x then e + (m : Int) else 0) := by
      intro v
      by_cases hv : v = n
      · simp only [if_pos hv]
        rw [hf2 n]
        by_cases hnx2 : n = x
        · rw [hv, hnx2]
          simp only [if_pos rfl]
          ring
        · rw [hv]
          simp only [if_neg hnx2]
          ring
      · simp only [if_neg hv]
        exact hf2 v
    by_cases hnx : n = x
    · -- this step decrements the doubled node itself
      subst hnx
      rw [cnt_cons] at hB
      simp only [eq_self_iff_true, if_true] at hB
      push_cast at hB
      have hd2 : f2 n - 1 = f1 n - 1 + (e + (m : Int)) := by
        rw [hf2 n]
        simp only [eq_self_iff_true, if_true]
        ring
      have happn : (fun v => if v = n then f1 n - 1 else f1 v) n = f1 n - 1 := by
        simp
      by_cases h1 : f1 n - 1 = 0
      · -- the unshifted counter hits zero here
        have hcl0 : 0 ≤ (cnt n l' : Int) := by positivity
        have he0 : e = 0 := by omega
        have hcnt0 : (cnt n l' : Int) = 0 := by omega
        rw [if_pos h1]
        rcases Nat.eq_zero_or_pos m with hm0 | hm1
        · -- no doubled copies at the end of this list: lockstep
          have hd20 : f2 n - 1 = 0 := by
            rw [hd2, h1, he0, hm0]
            simp
          rw [if_pos hd20]
          left
          constructor
          · have hpoint : ∀ v, (fun v => if v = n then f2 n - 1 else f2 v) v
                = (fun v => if v = n then f1 n - 1 else f1 v) v := by
              intro v
              have hv := hf2rel v
              rw [he0, hm0] at hv
              push_cast at hv
              simpa using hv
            have hcong := relax_congr _ _ hpoint l' (q ++ [n])
            rw [hcong]
          · intro hm
            omega
        · -- doubled copies remain: the suffix is empty and the shifted
          -- counter stays positive
          have hl'nil : l' = [] := by
            rcases htail [] l' rfl hm1 with hx | hx
            · exfalso
              have := cnt_pos_of_mem hx
              omega
            · exact hx
          have hd2ne : ¬ f2 n - 1 = 0 := by
            rw [hd2, h1, he0]
            push_cast
            omega
          rw [if_neg hd2ne, hl'nil]
          right
          refine ⟨rfl, he0, hm1, ?_⟩
          show (fun v => if v = n then f1 n - 1 else f1 v) n = 0
          rw [happn]
          exact h1
      · -- the unshifted counter stays away from zero, and so does the
        -- shifted one
        have hd1pos : 1 ≤ f1 n - 1 := by omega
        have hd2ne : ¬ f2 n - 1 = 0 := by
          rw [hd2]
          omega
        rw [if_neg h1, if_neg hd2ne]
        have hB' : (cnt n l' : Int) + e ≤
            (fun v => if v = n then f1 n - 1 else f1 v) n := by
          rw [happn]
          omega
        rcases ih _ _ q hf2rel htail' hB' with ⟨hq, hside⟩ | ⟨hq, he0, hm1, hfin⟩
        · left
          refine ⟨hq, ?_⟩
          intro hm
          right
          rcases hside hm with h0 | hne
          · rw [relax_fst]
            simp only [eq_self_iff_true, if_true]
            rw [h0]
            push_cast
            omega
          · exact hne
        · right
          exact ⟨hq, he0, hm1, hfin⟩
    · -- an ordinary node: both runs treat it identically
      have hd2 : f2 n = f1 n := by
        rw [hf2 n]
        simp only [if_neg hnx]
        ring
      have hcond : (if f2 n - 1 = 0 then q ++ [n] else q)
          = (if f1 n - 1 = 0 then q ++ [n] else q) := by rw [hd2]
      rw [hcond]
      have hB' : (cnt x l' : Int) + e ≤
          (fun v => if v = n then f1 n - 1 else f1 v) x := by
        simp only [if_neg (show ¬ x = n from fun h => hnx h.symm)]
        rw [cnt_cons] at hB
        simp only [if_neg hnx] at hB
        push_cast at hB
        omega
      rcases ih _ _ (if f1 n - 1 = 0 then q ++ [n] else q) hf2rel htail' hB'
        with ⟨hq, hside⟩ | ⟨hq, he0, hm1, hfin⟩
      · left
        refine ⟨hq, ?_⟩
        intro hm
        rcases hside hm with h0 | hne
        · left
          rw [cnt_cons]
          simp only [if_neg hnx]
          omega
        · right
          exact hne
      · right
        exact ⟨hq, he0, hm1, hfin⟩

theorem cnt_replicate (v x : α) (k : Nat) :
    cnt v (List.replicate k x) = if x = v then k else 0 := by
  by_cases h : x = v
  · rw [if_pos h, h, cnt_replicate_self]
  · rw [if_neg h]
    apply cnt_eq_zero_of_not_mem
    intro hmem
    exact h (List.eq_of_mem_replicate hmem).symm

/-- One loop iteration preserves the invariant (packaged form of
`relax_preserves`). -/
theorem kinv_step (P : List α) (adj : α → List α) (ID : α → Int)
    (henv : KEnv P adj ID) {bo rest : List α} {c : α} {f : α → Int}
    (hinv : KInv P adj ID bo (c :: rest) f) :
    KInv P adj ID (bo ++ [c]) (relax f rest (adj c)).2 (relax f rest (adj c)).1 := by
  have hstep := relax_preserves P adj ID henv bo c (adj c) [] f rest
    (List.nil_append _).symm
    (by
      intro v
      rw [cnt_nil]
      simp only [Nat.cast_zero, sub_zero]
      exact hinv.hcons v)
    (by
      have := hinv.hnod
      rwa [List.append_cons] at this)
    (by
      intro v hv
      apply hinv.hmem
      rw [List.append_cons]
      exact hv)
    (by
      intro v hvP hv0
      rcases hinv.hzero v hvP hv0 with h | h
      · exact Or.inl (List.mem_append_left _ h)
      · rcases List.mem_cons.mp h with rfl | h
        · exact Or.inl (List.mem_append_right _ (List.mem_singleton.mpr rfl))
        · exact Or.inr h)
    (by
      intro v hv
      apply hinv.hnonpos
      rcases hv with h | h
      · rcases List.mem_append.mp h with h | h
        · exact Or.inl h
        · rw [List.mem_singleton] at h
          exact Or.inr (h ▸ List.mem_cons_self _ _)
      · exact Or.inr (List.mem_cons_of_mem _ h))
    (by
      intro d w hw hmemw
      apply List.mem_append_left
      apply hinv.hedge d w hw
      rcases hmemw with h | h
      · rcases List.mem_append.mp h with h | h
        · exact Or.inl h
        · rw [List.mem_singleton] at h
          exact Or.inr (h ▸ List.mem_cons_self _ _)
      · exact Or.inr (List.mem_cons_of_mem _ h))
  obtain ⟨hc1, hc2, hc3, hc4, hc5, hc6⟩ := hstep
  refine ⟨?_, hc2, hc3, hc4, hc5, hc6⟩
  intro v
  rw [hc1 v, List.nil_append, List.map_append, List.sum_append]
  simp only [List.map_cons, List.map_nil, List.sum_cons, List.sum_nil]
  push_cast
  ring

/-- Loop-level simulation: on a graph whose every adjacency list carries an
extra trailing run of doubled copies of `x` (matching one repeated
`add_plugin(x)`), Kahn's loop produces exactly the same output list. -/
theorem kahnP_sim (P : List α) (adj1 adj2 : α → List α) (ID : α → Int)
    (x : α) (m : α → Nat)
    (henv : KEnv P adj1 ID)
    (hrel : ∀ u, adj2 u = adj1 u ++ List.replicate (m u) x)
    (hstruct : ∀ u, ∃ F, adj1 u = F ++ List.replicate (m u) x) :
    ∀ (fuel : Nat) (q bo : List α) (f1 f2 : α → Int),
    KInv P adj1 ID bo q f1 →
    (∀ v, f2 v = f1 v +
      (if v = x then (((P.filter (fun u => u ∉ bo)).map m).sum : Int) else 0)) →
    kahnP adj2 fuel q bo f2 = kahnP adj1 fuel q bo f1 := by
  have hcnt : ∀ u, m u ≤ cnt x (adj1 u) := by
    intro u
    rcases hstruct u with ⟨F, hF⟩
    rw [hF, cnt_append, cnt_replicate_self]
    omega
  intro fuel
  induction fuel with
  | zero => intro q bo f1 f2 _ _; rfl
  | succ fuel ih =>
    intro q bo f1 f2 hinv hf2
    match q with
    | [] => rfl
    | c :: rest =>
      have hcP : c ∈ P := hinv.hmem c (List.mem_append_right _ (List.mem_cons_self _ _))
      have hcbo : c ∉ bo := by
        intro hmem
        have hdisj := List.disjoint_of_nodup_append hinv.hnod
        exact hdisj hmem (List.mem_cons_self _ _)
      have hbonod : bo.Nodup := (List.nodup_append.mp hinv.hnod).1
      have hbosub : ∀ v ∈ bo, v ∈ P :=
        fun v hv => hinv.hmem v (List.mem_append_left _ hv)
      -- split the waiting doubled copies: this list's tail run vs the rest
      have hδ : ((P.filter (fun u => u ∉ bo)).map m).sum =
          m c + ((P.filter (fun u => u ∉ bo ++ [c])).map m).sum :=
        filter_not_mem_pop P bo c m henv.hPnod hcP hcbo
      set δ' : Nat := ((P.filter (fun u => u ∉ bo ++ [c])).map m).sum with hδ'eq
      -- the remaining in-degree of `x` dominates this list plus the other
      -- unpopped doubled runs
      have hf1x : f1 x = ((((P.filter (fun u => u ∉ bo)).map
          (fun u => cnt x (adj1 u))).sum : Nat) : Int) := by
        rw [hinv.hcons x, henv.hID x,
          sum_map_split_filter P bo (fun u => cnt x (adj1 u)) henv.hPnod hbonod hbosub]
        push_cast
        ring
      have hsplitc : ((P.filter (fun u => u ∉ bo)).map (fun u => cnt x (adj1 u))).sum =
          cnt x (adj1 c) + ((P.filter (fun u => u ∉ bo ++ [c])).map
            (fun u => cnt x (adj1 u))).sum :=
        filter_not_mem_pop P bo c _ henv.hPnod hcP hcbo
      have hmono : δ' ≤ ((P.filter (fun u => u ∉ bo ++ [c])).map
          (fun u => cnt x (adj1 u))).sum := by
        rw [hδ'eq]
        exact sum_map_mono (fun u _ => hcnt u)
      have hB : (cnt x (adj1 c) : Int) + (δ' : Int) ≤ f1 x := by
        rw [hf1x, hsplitc, Nat.cast_add]
        omega
      have htailc : ∀ a b, adj1 c = a ++ x :: b → 1 ≤ m c → (x ∈ b ∨ b = []) := by
        intro a b hab hm
        rcases hstruct c with ⟨F, hF⟩
        exact tail_split_replicate F x (m c) hm a b (hF.symm.trans hab)
      have hf2c : ∀ v, f2 v = f1 v + (if v = x then (δ' : Int) + ((m c : Nat) : Int) else 0) := by
        intro v
        rw [hf2 v]
        by_cases hv : v = x
        · simp only [if_pos hv]
          rw [hδ]
          push_cast
          ring
        · simp only [if_neg hv]
      have hsim := relax_sim_common x (m c) (δ' : Int) (by positivity)
        (adj1 c) f1 f2 rest hf2c htailc hB
      -- in both cases, the shifted run ends this iteration with the same
      -- queue as the unshifted one
      have hq2 : (relax f2 rest (adj2 c)).2 = (relax f1 rest (adj1 c)).2 := by
        have hsplit : relax f2 rest (adj2 c) =
            relax (relax f2 rest (adj1 c)).1 (relax f2 rest (adj1 c)).2
              (List.replicate (m c) x) := by
          rw [hrel c]
          exact relax_append _ _ _ _
        have hf2cx : (relax f2 rest (adj1 c)).1 x =
            (f1 x - cnt x (adj1 c)) + ((m c : Nat) : Int) + (δ' : Int) := by
          rw [relax_fst, hf2c x]
          simp only [eq_self_iff_true, if_true]
          ring
        rcases hsim with ⟨hqc, hside⟩ | ⟨hq21, he0, hm1, hfin⟩
        · -- no enqueue of `x` happened; the doubled tail does not fire either
          have hnofire : ¬ ((1:Int) ≤ (f1 x - cnt x (adj1 c)) + ((m c : Nat) : Int) + (δ' : Int) ∧
              (f1 x - cnt x (adj1 c)) + ((m c : Nat) : Int) + (δ' : Int) ≤ ((m c : Nat) : Int)) := by
            rintro ⟨ha, hb⟩
            have hm1 : 1 ≤ m c := by omega
            rcases hside hm1 with h0 | hne
            · have := hcnt c
              omega
            · rw [relax_fst] at hne
              omega
          rw [hsplit, relax_replicate_snd, hf2cx, if_neg hnofire]
          exact hqc
        · -- the unshifted run enqueued `x` at the very end of the list; the
          -- doubled tail re-fires it for the shifted run
          have hδ'0 : (δ' : Int) = 0 := he0
          rw [relax_fst] at hfin
          have hfire : ((1:Int) ≤ (f1 x - cnt x (adj1 c)) + ((m c : Nat) : Int) + (δ' : Int) ∧
              (f1 x - cnt x (adj1 c)) + ((m c : Nat) : Int) + (δ' : Int) ≤ ((m c : Nat) : Int)) := by
            constructor <;> omega
          rw [hsplit, relax_replicate_snd, hf2cx, if_pos hfire, hq21]
      -- recurse
      have hinv' := kinv_step P adj1 ID henv hinv
      have hf2' : ∀ v, (relax f2 rest (adj2 c)).1 v =
          (relax f1 rest (adj1 c)).1 v +
            (if v = x then (((P.filter (fun u => u ∉ bo ++ [c])).map m).sum : Int)
             else 0) := by
        intro v
        rw [relax_fst, relax_fst, hrel c, cnt_append, cnt_replicate, hf2 v]
        by_cases hv : v = x
        · simp only [if_pos hv, if_pos (show x = v from hv.symm)]
          rw [hδ, ← hδ'eq]
          push_cast
          ring
        · simp only [if_neg hv, if_neg (show ¬ x = v from fun h => hv h.symm)]
          push_cast
          ring
      rw [kahnP, kahnP]
      show kahnP adj2 fuel (relax f2 rest (adj2 c)).2 (bo ++ [c])
          (relax f2 rest (adj2 c)).1 =
        kahnP adj1 fuel (relax f1 rest (adj1 c)).2 (bo ++ [c])
          (relax f1 rest (adj1 c)).1
      rw [hq2]
      exact ih _ _ _ _ hinv' hf2'

theorem sum_map_add (S : List α) (g h : α → Nat) :
    (S.map (fun u => g u + h u)).sum = (S.map g).sum + (S.map h).sum := by
  induction S with
  | nil => rfl
  | cons a S ih =>
    simp only [List.map_cons, List.sum_cons, ih]
    omega

theorem sum_map_zero (S : List α) : (S.map (fun _ => (0:Nat))).sum = 0 := by
  induction S with
  | nil => rfl
  | cons a S ih => simpa using ih

/-- The raw return value of `get_build_order`, written through the pure
loop. -/
theorem get_build_order_fst (G : PDG α) :
    (get_build_order G).1 =
      (if (kahnP (lookupD G._graph) G._plugins.length
            (G._plugins.filter (fun v => inDeg0 G._graph v = 0)) []
            (inDeg0 G._graph)).length = G._plugins.length
       then Except.ok (kahnP (lookupD G._graph) G._plugins.length
            (G._plugins.filter (fun v => inDeg0 G._graph v = 0)) []
            (inDeg0 G._graph))
       else Except.error "Cycle detected in dependencies!") := by
  show (if (kahn G._plugins.length G._graph
        (G._plugins.filter (fun v => inDeg0 G._graph v = 0)) []
        (inDeg0 G._graph)).1.length = G._plugins.length
      then Except.ok (kahn G._plugins.length G._graph
        (G._plugins.filter (fun v => inDeg0 G._graph v = 0)) []
        (inDeg0 G._graph)).1
      else Except.error "Cycle detected in dependencies!") = _
  rw [kahn_fst_eq_kahnP]

/-- Registering `x` twice in direct succession leaves the known-plugin set
unchanged. -/
theorem plugins_double (deps : α → List α) (l : List α) (x : α) :
    (buildPDG deps (l ++ [x, x]))._plugins = (buildPDG deps (l ++ [x]))._plugins := by
  rw [plugins_buildPDG, plugins_buildPDG]
  have h2 : ((l ++ [x, x]).map (fun y => deps y ++ [y])).flatten =
      ((l ++ [x]).map (fun y => deps y ++ [y])).flatten ++ (deps x ++ [x]) := by
    simp [List.map_append, List.flatten_append]
  rw [h2, List.foldl_append]
  apply foldl_sadd_eq_of_subset
  intro a ha
  exact foldl_sadd_mem_of_mem_list _
    (List.mem_flatten.mpr ⟨deps x ++ [x], by simp, ha⟩)

/-- Registering `x` twice in direct succession appends one extra run of
`x`'s at the end of each dependency's adjacency list. -/
theorem lookup_double (deps : α → List α) (l : List α) (x u : α) :
    lookupD (buildPDG deps (l ++ [x, x]))._graph u =
      lookupD (buildPDG deps (l ++ [x]))._graph u
        ++ List.replicate (cnt u (deps x)) x := by
  rw [lookupD_buildPDG, lookupD_buildPDG]
  simp [List.map_append, List.flatten_append, List.append_assoc]

theorem lookup_single_struct (deps : α → List α) (l : List α) (x u : α) :
    ∃ F, lookupD (buildPDG deps (l ++ [x]))._graph u =
      F ++ List.replicate (cnt u (deps x)) x := by
  refine ⟨(l.map (fun y => List.replicate (cnt u (deps y)) y)).flatten, ?_⟩
  rw [lookupD_buildPDG]
  simp [List.map_append, List.flatten_append]

/-- Calling `add_plugin(x)` twice in a row instead of once does not change
the outcome of `get_build_order` (same returned order, or the same raised
error). -/
theorem double_add_same_result (deps : α → List α) (l : List α) (x : α) :
    (get_build_order (buildPDG deps (l ++ [x, x]))).1 =
      (get_build_order (buildPDG deps (l ++ [x]))).1 := by
  have hP := plugins_double deps l x
  have hrel := lookup_double deps l x
  have hstruct := lookup_single_struct deps l x
  have henv := kenv_buildPDG deps (l ++ [x])
  have hcnt : ∀ u, cnt u (deps x) ≤
      cnt x (lookupD (buildPDG deps (l ++ [x]))._graph u) := by
    intro u
    rcases hstruct u with ⟨F, hF⟩
    rw [hF, cnt_append, cnt_replicate_self]
    omega
  -- the two in-degree tables differ exactly by the total number of doubled
  -- copies, all charged to `x`
  have hid2 : ∀ v, inDeg0 (buildPDG deps (l ++ [x, x]))._graph v =
      inDeg0 (buildPDG deps (l ++ [x]))._graph v +
        (if v = x then
          (((buildPDG deps (l ++ [x]))._plugins.map (fun u => cnt u (deps x))).sum : Int)
         else 0) := by
    intro v
    have hkeys2sub : ∀ u ∈ keysOf (buildPDG deps (l ++ [x, x]))._graph,
        u ∈ (buildPDG deps (l ++ [x]))._plugins := by
      intro u hu
      rw [← hP]
      exact keysOf_buildPDG_sub_plugins deps (l ++ [x, x]) u hu
    rw [inDeg0_eq_sum_cover (buildPDG deps (l ++ [x]))._plugins
      (keysOf_buildPDG_nodup deps (l ++ [x, x])) (plugins_buildPDG_nodup deps (l ++ [x]))
      hkeys2sub v, henv.hID v]
    have hpt : (buildPDG deps (l ++ [x]))._plugins.map
        (fun u => cnt v (lookupD (buildPDG deps (l ++ [x, x]))._graph u)) =
      (buildPDG deps (l ++ [x]))._plugins.map
        (fun u => cnt v (lookupD (buildPDG deps (l ++ [x]))._graph u)
          + cnt v (List.replicate (cnt u (deps x)) x)) := by
      apply List.map_congr_left
      intro u _
      rw [hrel u, cnt_append]
    rw [hpt, sum_map_add]
    by_cases hv : v = x
    · have hrep : (buildPDG deps (l ++ [x]))._plugins.map
          (fun u => cnt v (List.replicate (cnt u (deps x)) x))
          = (buildPDG deps (l ++ [x]))._plugins.map (fun u => cnt u (deps x)) := by
        apply List.map_congr_left
        intro u _
        rw [cnt_replicate, if_pos hv.symm]
      rw [hrep, if_pos hv]
      push_cast
      ring
    · have hrep : (buildPDG deps (l ++ [x]))._plugins.map
          (fun u => cnt v (List.replicate (cnt u (deps x)) x))
          = (buildPDG deps (l ++ [x]))._plugins.map (fun _ => 0) := by
        apply List.map_congr_left
        intro u _
        rw [cnt_replicate, if_neg (fun h => hv h.symm)]
      rw [hrep, if_neg hv, sum_map_zero]
      push_cast
      ring
  -- the doubled copies are dominated by the plain in-degree of `x`
  have hM_le : ((buildPDG deps (l ++ [x]))._plugins.map (fun u => cnt u (deps x))).sum ≤
      ((buildPDG deps (l ++ [x]))._plugins.map
        (fun u => cnt x (lookupD (buildPDG deps (l ++ [x]))._graph u))).sum :=
    sum_map_mono (fun u _ => hcnt u)
  -- the two seeding queues coincide
  have hseedeq : (buildPDG deps (l ++ [x]))._plugins.filter
      (fun v => inDeg0 (buildPDG deps (l ++ [x, x]))._graph v = 0) =
    (buildPDG deps (l ++ [x]))._plugins.filter
      (fun v => inDeg0 (buildPDG deps (l ++ [x]))._graph v = 0) := by
    apply List.filter_congr
    intro v _
    apply decide_eq_decide.mpr
    by_cases hv : v = x
    · have h2 := hid2 v
      rw [if_pos hv] at h2
      have h1 := henv.hID v
      have h3 : ((buildPDG deps (l ++ [x]))._plugins.map (fun u => cnt u (deps x))).sum ≤
          ((buildPDG deps (l ++ [x]))._plugins.map
            (fun u => cnt v (lookupD (buildPDG deps (l ++ [x]))._graph u))).sum := by
        rw [hv]
        exact hM_le
      omega
    · have h2 := hid2 v
      rw [if_neg hv] at h2
      omega
  -- the initial counter shift, phrased over the empty popped list
  have hf2init : ∀ v, inDeg0 (buildPDG deps (l ++ [x, x]))._graph v =
      inDeg0 (buildPDG deps (l ++ [x]))._graph v +
        (if v = x then
          ((((buildPDG deps (l ++ [x]))._plugins.filter (fun u => u ∉ ([] : List α))).map
            (fun u => cnt u (deps x))).sum : Int)
         else 0) := by
    intro v
    have hfilt : (buildPDG deps (l ++ [x]))._plugins.filter (fun u => u ∉ ([] : List α))
        = (buildPDG deps (l ++ [x]))._plugins := by
      apply List.filter_eq_self.mpr
      intro a _
      simp
    rw [hfilt]
    exact hid2 v
  have hsimres := kahnP_sim (buildPDG deps (l ++ [x]))._plugins
    (lookupD (buildPDG deps (l ++ [x]))._graph)
    (lookupD (buildPDG deps (l ++ [x, x]))._graph)
    (inDeg0 (buildPDG deps (l ++ [x]))._graph) x (fun u => cnt u (deps x))
    henv hrel hstruct
    (buildPDG deps (l ++ [x]))._plugins.length
    ((buildPDG deps (l ++ [x]))._plugins.filter
      (fun v => inDeg0 (buildPDG deps (l ++ [x]))._graph v = 0))
    [] _ _ (kinv_seed _ _ _ henv) hf2init
  rw [get_build_order_fst, get_build_order_fst, hP, hseedeq, hsimres]

/-! ### Observable stability of a second `get_build_order` call -/

theorem inDeg0_ddTouch (g : Graph α) (k : α) (v : α) :
    inDeg0 (ddTouch g k) v = inDeg0 g v := by
  induction g with
  | nil =>
    show ((([(k, ([] : List α))]).map (fun e => cnt v e.2)).sum : Int) = _
    simp [inDeg0]
  | cons e es ih =>
    by_cases hek : e.1 = k
    · simp [ddTouch, hek]
    · rw [show ddTouch (e :: es) k = e :: ddTouch es k from by simp [ddTouch, hek]]
      simp only [inDeg0, List.map_cons, List.sum_cons] at ih ⊢
      push_cast at ih ⊢
      omega

theorem kahn_snd_inDeg0 :
    ∀ (fuel : Nat) (g : Graph α) (q bo : List α) (f : α → Int) (v : α),
    inDeg0 (kahn fuel g q bo f).2 v = inDeg0 g v := by
  intro fuel
  induction fuel with
  | zero => intro g q bo f v; rfl
  | succ fuel ih =>
    intro g q bo f v
    match q with
    | [] => rfl
    | c :: rest =>
      rw [kahn]
      show inDeg0 (kahn fuel (ddTouch g c) _ _ _).2 v = _
      rw [ih, inDeg0_ddTouch]

/-- C9 (amended): `get_build_order` is observationally pure but not a pure
query on the stored state: the known-plugins set is untouched and the graph
reads the same at every key, yet the `defaultdict` may gain empty adjacency
entries, so `_graph` itself can change. Two consecutive calls still agree:
the second call returns exactly the first call's result (both raise, or both
return the same list). -/
theorem get_build_order_stable (G : PDG α) :
    (get_build_order G).2._plugins = G._plugins ∧
    (∀ k, lookupD (get_build_order G).2._graph k = lookupD G._graph k) ∧
    (get_build_order (get_build_order G).2).1 = (get_build_order G).1 := by
  have hplug : (get_build_order G).2._plugins = G._plugins := rfl
  have hlk : ∀ k, lookupD (get_build_order G).2._graph k = lookupD G._graph k := by
    intro k
    show lookupD (kahn G._plugins.length G._graph
      (G._plugins.filter (fun v => inDeg0 G._graph v = 0)) [] (inDeg0 G._graph)).2 k = _
    exact kahn_snd_lookupD _ _ _ _ _ _
  have hid : ∀ v, inDeg0 (get_build_order G).2._graph v = inDeg0 G._graph v := by
    intro v
    show inDeg0 (kahn G._plugins.length G._graph
      (G._plugins.filter (fun v => inDeg0 G._graph v = 0)) [] (inDeg0 G._graph)).2 v = _
    exact kahn_snd_inDeg0 _ _ _ _ _ _
  refine ⟨hplug, hlk, ?_⟩
  rw [get_build_order_fst, get_build_order_fst, hplug,
    show lookupD (get_build_order G).2._graph = lookupD G._graph from funext hlk,
    show inDeg0 (get_build_order G).2._graph = inDeg0 G._graph from funext hid]

/-! ### `Core.build` (`plugins.py`, lines 36-49) -/

/-- The layout choice of `Core.Config` (`Literal["src", "flat"]`). -/
inductive Layout
  | src
  | flat
deriving DecidableEq, Repr

/-- The file-system facts about `project_root` that `Core.build` reads:
`project_root.exists()`, `project_root.is_dir()`, and
`any(project_root.iterdir())`. -/
structure RootState where
  root_present : Bool
  is_dir : Bool
  has_entries : Bool
deriving DecidableEq, Repr

/-- The observable outcome of `Core.build`: either the whole process
terminates through `sys.exit` with an exit code, after printing the given
diagnostic, or a source directory is created via `mkdir(parents=True)`. -/
inductive CoreBuildOutcome
  | exited (code : Nat) (message : String)
  | createdDir (path : List String)
deriving DecidableEq, Repr

/-- `Core.build`: when the project root exists, is a directory and is
non-empty, print the diagnostic and `sys.exit(1)`; otherwise build the
source folder path (`<root>/<name>` for the flat layout,
`<root>/src/<name>` otherwise, with `-` replaced by `_` in the name) and
create it. -/
def Core_build (root : RootState) (project_root project_name : String)
    (layout : Layout) : CoreBuildOutcome :=
  if root.root_present && root.is_dir && root.has_entries then
    CoreBuildOutcome.exited 1
      ("🚨 Project directory " ++ project_root ++ " already exists and is not empty.")
  else
    let folder := String.map (fun c => if c = '-' then '_' else c) project_name
    CoreBuildOutcome.createdDir
      (if layout = Layout.flat then [project_root, folder]
       else [project_root, "src", folder])

/-! ### Concrete plugin universe for the shipped plugins -/

/-- The three concrete plugin classes shipped in `plugins.py`. -/
inductive PluginId
  | Core
  | ReadMe
  | PyProjectToml
deriving DecidableEq, Repr

instance : Fintype PluginId :=
  ⟨⟨{PluginId.Core, PluginId.ReadMe, PluginId.PyProjectToml}, by decide⟩,
   fun x => by cases x <;> decide⟩

/-- The `dependencies` attributes of the shipped plugins: `Core` has none,
`ReadMe` and `PyProjectToml` depend on `Core`. -/
def shippedDeps : PluginId → List PluginId
  | PluginId.Core => []
  | PluginId.ReadMe => [PluginId.Core]
  | PluginId.PyProjectToml => [PluginId.Core]

/-- A cyclic variant used as a counterexample input: two plugins depending
on each other. -/
def cyclicDeps : PluginId → List PluginId
  | PluginId.Core => [PluginId.ReadMe]
  | PluginId.ReadMe => [PluginId.Core]
  | PluginId.PyProjectToml => []

/-- A self-loop variant: a plugin listing itself among its dependencies. -/
def selfDeps : PluginId → List PluginId
  | PluginId.Core => [PluginId.Core]
  | _ => []

/-- A graph admitting a strictly monotone rank along its recorded edges has
no cycle. -/
theorem acyclic_of_rank {g : Graph α} (rank : α → Nat)
    (h : ∀ d p, EdgeOf g d p → rank d < rank p) : ¬ HasCycle g := by
  rintro ⟨z, hz⟩
  have hmono : ∀ a b, Relation.TransGen (EdgeOf g) a b → rank a < rank b := by
    intro a b htg
    induction htg with
    | single h1 => exact h _ _ h1
    | tail _ h1 ih => exact lt_trans ih (h _ _ h1)
  exact lt_irrefl _ (hmono z z hz)

instance (g : Graph α) (d p : α) : Decidable (EdgeOf g d p) :=
  inferInstanceAs (Decidable (p ∈ lookupD g d))

instance {ε σ : Type} [DecidableEq ε] [DecidableEq σ] : DecidableEq (Except ε σ)
  | Except.ok x, Except.ok y =>
      if h : x = y then isTrue (h ▸ rfl)
      else isFalse (fun he => h (by injection he))
  | Except.ok _, Except.error _ => isFalse (fun he => Except.noConfusion he)
  | Except.error _, Except.ok _ => isFalse (fun he => Except.noConfusion he)
  | Except.error e, Except.error f =>
      if h : e = f then isTrue (h ▸ rfl)
      else isFalse (fun he => h (by injection he))

theorem buildPDG_snoc (deps : α → List α) (l : List α) (x : α) :
    buildPDG deps (l ++ [x]) = add_plugin deps (buildPDG deps l) x := by
  rw [buildPDG, buildPDG, List.foldl_append]
  rfl

/-! ### The claims -/

/-- C1: for every acyclic dependency graph built by a sequence of
`add_plugin` calls, `get_build_order` returns a permutation of the known
plugins containing every registered plugin exactly once, and for every edge
`d → p` (`p` declares `d` among its dependencies), `d` appears strictly
before `p` in the returned list. -/
theorem build_order_topological_of_acyclic (deps : α → List α) (l : List α)
    (hacyc : ¬ HasCycle (buildPDG deps l)._graph) :
    ∃ bo, (get_build_order (buildPDG deps l)).1 = Except.ok bo ∧
      bo.Perm (buildPDG deps l)._plugins ∧
      (∀ p ∈ l, bo.count p = 1) ∧
      (∀ d p, p ∈ l → d ∈ deps p → Before bo d p) := by
  rcases ok_of_acyclic deps l hacyc with ⟨bo, hok⟩
  rcases ok_result_props deps l hok with ⟨hperm, hord⟩
  refine ⟨bo, hok, hperm, ?_, ?_⟩
  · intro p hp
    have hmem : p ∈ (buildPDG deps l)._plugins :=
      mem_plugins_buildPDG.mpr ⟨p, hp, Or.inr rfl⟩
    have hnod : bo.Nodup := hperm.nodup_iff.mpr (plugins_buildPDG_nodup deps l)
    exact List.count_eq_one_of_mem hnod (hperm.mem_iff.mpr hmem)
  · intro d p hp hd
    exact hord d p (mem_lookupD_buildPDG.mpr ⟨hp, hd⟩)
      (hperm.mem_iff.mpr (mem_plugins_buildPDG.mpr ⟨p, hp, Or.inr rfl⟩))

theorem build_order_topological_of_acyclic_witness :
    (¬ HasCycle (buildPDG shippedDeps
      [PluginId.Core, PluginId.ReadMe, PluginId.PyProjectToml])._graph) ∧
    (∃ bo, (get_build_order (buildPDG shippedDeps
        [PluginId.Core, PluginId.ReadMe, PluginId.PyProjectToml])).1 = Except.ok bo ∧
      bo.Perm (buildPDG shippedDeps
        [PluginId.Core, PluginId.ReadMe, PluginId.PyProjectToml])._plugins ∧
      (∀ p ∈ [PluginId.Core, PluginId.ReadMe, PluginId.PyProjectToml], bo.count p = 1) ∧
      (∀ d p, p ∈ [PluginId.Core, PluginId.ReadMe, PluginId.PyProjectToml] →
        d ∈ shippedDeps p → Before bo d p)) :=
  have hacyc : ¬ HasCycle (buildPDG shippedDeps
      [PluginId.Core, PluginId.ReadMe, PluginId.PyProjectToml])._graph :=
    acyclic_of_rank
      (fun i => match i with
        | PluginId.Core => 0
        | PluginId.ReadMe => 1
        | PluginId.PyProjectToml => 1)
      (by decide)
  ⟨hacyc, build_order_topological_of_acyclic shippedDeps _ hacyc⟩

/-- C2: for every graph built by `add_plugin` calls that contains a
dependency cycle, `get_build_order` raises
`ValueError("Cycle detected in dependencies!")` and never returns a
(partial) order. -/
theorem cycle_always_detected (deps : α → List α) (l : List α)
    (hcyc : HasCycle (buildPDG deps l)._graph) :
    (get_build_order (buildPDG deps l)).1 =
      Except.error "Cycle detected in dependencies!" ∧
    (∀ bo, (get_build_order (buildPDG deps l)).1 ≠ Except.ok bo) := by
  have h := error_of_cycle deps l hcyc
  refine ⟨h, ?_⟩
  intro bo hcontra
  rw [h] at hcontra
  cases hcontra

theorem cycle_always_detected_witness :
    HasCycle (buildPDG cyclicDeps [PluginId.Core, PluginId.ReadMe])._graph ∧
    ((get_build_order (buildPDG cyclicDeps [PluginId.Core, PluginId.ReadMe])).1 =
      Except.error "Cycle detected in dependencies!" ∧
    (∀ bo, (get_build_order (buildPDG cyclicDeps [PluginId.Core, PluginId.ReadMe])).1 ≠
      Except.ok bo)) :=
  have hcyc : HasCycle (buildPDG cyclicDeps [PluginId.Core, PluginId.ReadMe])._graph :=
    ⟨PluginId.Core,
     Relation.TransGen.head (show EdgeOf _ PluginId.Core PluginId.ReadMe by decide)
       (Relation.TransGen.single (show EdgeOf _ PluginId.ReadMe PluginId.Core by decide))⟩
  ⟨hcyc, cycle_always_detected cyclicDeps _ hcyc⟩

/-- C3: registration is idempotent with respect to the result: from any
graph state reached by `add_plugin` registrations, calling `add_plugin(x)`
twice instead of once leaves the outcome of `get_build_order` unchanged —
the same order is returned (or the same cycle error raised), with no
corrupted in-degree accounting. -/
theorem add_plugin_twice_same_build_order (deps : α → List α) (l : List α) (x : α) :
    (get_build_order (add_plugin deps (add_plugin deps (buildPDG deps l) x) x)).1 =
      (get_build_order (add_plugin deps (buildPDG deps l) x)).1 := by
  rw [← buildPDG_snoc deps l x,
    show add_plugin deps (buildPDG deps (l ++ [x])) x = buildPDG deps (l ++ [x, x]) from by
      rw [← buildPDG_snoc deps (l ++ [x]) x, List.append_assoc]
      rfl]
  exact double_add_same_result deps l x

/-- C5: `add_plugin(p)` records, for each `d` in `p.dependencies`, the edge
`d → p` and adds both `d` and `p` to the known-plugins set; consequently a
dependency is discovered even when never registered explicitly, and whenever
`get_build_order` succeeds on a registration run containing `p`, both `p`
and each of its dependencies appear in the output. -/
theorem add_plugin_records_edges (deps : α → List α) (g : PDG α) (x : α) :
    (∀ d ∈ deps x, EdgeOf (add_plugin deps g x)._graph d x ∧
      d ∈ (add_plugin deps g x)._plugins) ∧
    x ∈ (add_plugin deps g x)._plugins ∧
    (∀ l bo, x ∈ l → (get_build_order (buildPDG deps l)).1 = Except.ok bo →
      x ∈ bo ∧ ∀ d ∈ deps x, d ∈ bo) := by
  refine ⟨?_, ?_, ?_⟩
  · intro d hd
    constructor
    · show x ∈ lookupD (add_plugin deps g x)._graph d
      rw [lookupD_add_plugin]
      refine List.mem_append.mpr (Or.inr ?_)
      refine List.mem_replicate.mpr ⟨?_, rfl⟩
      have := cnt_pos_of_mem hd
      omega
    · show d ∈ sadd ((deps x).foldl sadd g._plugins) x
      exact mem_sadd_of_mem x (foldl_sadd_mem_of_mem_list _ hd)
  · exact mem_sadd_self _ x
  · intro l bo hx hok
    rcases ok_result_props deps l hok with ⟨hperm, _⟩
    refine ⟨hperm.mem_iff.mpr (mem_plugins_buildPDG.mpr ⟨x, hx, Or.inr rfl⟩), ?_⟩
    intro d hd
    exact hperm.mem_iff.mpr (mem_plugins_buildPDG.mpr ⟨x, hx, Or.inl hd⟩)

/-- C6: `Core.build` terminates the whole process with exit code 1 after
printing the diagnostic whenever the project root exists, is a directory and
is non-empty; the exit code is non-zero, no recoverable condition is raised
(the outcome is the process exit itself), and no directory is created in
that case. -/
theorem core_build_aborts_on_populated_root (root : RootState)
    (project_root project_name : String) (layout : Layout)
    (hex : root.root_present = true) (hdir : root.is_dir = true)
    (hne : root.has_entries = true) :
    Core_build root project_root project_name layout =
      CoreBuildOutcome.exited 1
        ("🚨 Project directory " ++ project_root ++
          " already exists and is not empty.") ∧
    (∀ code msg, Core_build root project_root project_name layout =
      CoreBuildOutcome.exited code msg → code ≠ 0) ∧
    (∀ p, Core_build root project_root project_name layout ≠
      CoreBuildOutcome.createdDir p) := by
  have h : Core_build root project_root project_name layout =
      CoreBuildOutcome.exited 1
        ("🚨 Project directory " ++ project_root ++
          " already exists and is not empty.") := by
    rw [Core_build, hex, hdir, hne]
    rfl
  refine ⟨h, ?_, ?_⟩
  · intro code msg hcm
    rw [h] at hcm
    injection hcm with h1 _
    omega
  · intro p hp
    rw [h] at hp
    exact CoreBuildOutcome.noConfusion hp

theorem core_build_aborts_on_populated_root_witness :
    ((⟨true, true, true⟩ : RootState).root_present = true ∧
     (⟨true, true, true⟩ : RootState).is_dir = true ∧
     (⟨true, true, true⟩ : RootState).has_entries = true) ∧
    (Core_build ⟨true, true, true⟩ "demo" "my-proj" Layout.src =
      CoreBuildOutcome.exited 1
        ("🚨 Project directory " ++ "demo" ++
          " already exists and is not empty.") ∧
    (∀ code msg, Core_build ⟨true, true, true⟩ "demo" "my-proj" Layout.src =
      CoreBuildOutcome.exited code msg → code ≠ 0) ∧
    (∀ p, Core_build ⟨true, true, true⟩ "demo" "my-proj" Layout.src ≠
      CoreBuildOutcome.createdDir p)) :=
  ⟨⟨rfl, rfl, rfl⟩,
   core_build_aborts_on_populated_root ⟨true, true, true⟩ "demo" "my-proj"
     Layout.src rfl rfl rfl⟩

/-- C7: for the shipped plugin set `{Core (no deps), ReadMe ([Core]),
PyProjectToml ([Core])}`, registering the three plugins in any order makes
`get_build_order` return a list of exactly those three plugins with `Core`
strictly first. -/
theorem scenarioA_core_first (ps : List PluginId)
    (hps : ps.Perm [PluginId.Core, PluginId.ReadMe, PluginId.PyProjectToml]) :
    ∃ bo, (get_build_order (buildPDG shippedDeps ps)).1 = Except.ok bo ∧
      bo.Perm [PluginId.Core, PluginId.ReadMe, PluginId.PyProjectToml] ∧
      bo.head? = some PluginId.Core := by
  have hlen : ps.length = 3 := hps.length_eq
  rcases ps with _ | ⟨a, _ | ⟨b, _ | ⟨c, _ | ⟨d, tl⟩⟩⟩⟩
  · simp at hlen
  · simp at hlen
  · simp at hlen
  · cases a <;> cases b <;> cases c <;>
      first
        | exact absurd hps (by decide)
        | exact ⟨[PluginId.Core, PluginId.ReadMe, PluginId.PyProjectToml],
            by decide, by decide, by decide⟩
        | exact ⟨[PluginId.Core, PluginId.PyProjectToml, PluginId.ReadMe],
            by decide, by decide, by decide⟩
  · simp [List.length] at hlen

theorem scenarioA_core_first_witness :
    ([PluginId.ReadMe, PluginId.Core, PluginId.PyProjectToml].Perm
      [PluginId.Core, PluginId.ReadMe, PluginId.PyProjectToml]) ∧
    (∃ bo, (get_build_order (buildPDG shippedDeps
        [PluginId.ReadMe, PluginId.Core, PluginId.PyProjectToml])).1 =
        Except.ok bo ∧
      bo.Perm [PluginId.Core, PluginId.ReadMe, PluginId.PyProjectToml] ∧
      bo.head? = some PluginId.Core) :=
  ⟨by decide, scenarioA_core_first _ (by decide)⟩

/-- C8: `add_plugin` never fails: on any input (also one with an empty
dependency list) it produces a defined successor state in which the plugin
is known together with all of its dependencies; cycles among registered
plugins are only detected later, by `get_build_order`, as the cycle error. -/
theorem add_plugin_never_fails (deps : α → List α) (g : PDG α) (x : α) :
    (∃ g', add_plugin deps g x = g') ∧
    x ∈ (add_plugin deps g x)._plugins ∧
    (∀ d ∈ deps x, d ∈ (add_plugin deps g x)._plugins) ∧
    (∀ l, HasCycle (buildPDG deps l)._graph →
      (get_build_order (buildPDG deps l)).1 =
        Except.error "Cycle detected in dependencies!") := by
  refine ⟨⟨add_plugin deps g x, rfl⟩, mem_sadd_self _ x, ?_, ?_⟩
  · intro d hd
    exact mem_sadd_of_mem x (foldl_sadd_mem_of_mem_list _ hd)
  · intro l hcyc
    exact error_of_cycle deps l hcyc

/-- C9 counterexample: `get_build_order` is not a pure query on the object
state — its `defaultdict` reads insert empty adjacency entries. Registering
just `Core` and calling `get_build_order` once leaves `_graph` different
from the `_graph` before the call (it gains the entry `(Core, [])`). -/
theorem get_build_order_mutates_graph :
    (get_build_order (buildPDG shippedDeps [PluginId.Core])).2._graph ≠
      (buildPDG shippedDeps [PluginId.Core])._graph := by
  decide

/-- C10: a self-loop is detected as a cycle: whenever some registered plugin
lists itself among its own dependencies, `get_build_order` raises the
cycle-detected error and never returns an order. -/
theorem self_dependency_detected (deps : α → List α) (l : List α) (x : α)
    (hx : x ∈ l) (hself : x ∈ deps x) :
    (get_build_order (buildPDG deps l)).1 =
      Except.error "Cycle detected in dependencies!" ∧
    (∀ bo, (get_build_order (buildPDG deps l)).1 ≠ Except.ok bo) := by
  have herr := error_of_cycle deps l
    ⟨x, Relation.TransGen.single
      (show EdgeOf _ x x from mem_lookupD_buildPDG.mpr ⟨hx, hself⟩)⟩
  refine ⟨herr, ?_⟩
  intro bo hcontra
  rw [herr] at hcontra
  cases hcontra

theorem self_dependency_detected_witness :
    (PluginId.Core ∈ [PluginId.Core] ∧
     PluginId.Core ∈ selfDeps PluginId.Core) ∧
    ((get_build_order (buildPDG selfDeps [PluginId.Core])).1 =
      Except.error "Cycle detected in dependencies!" ∧
    (∀ bo, (get_build_order (buildPDG selfDeps [PluginId.Core])).1 ≠
      Except.ok bo)) :=
  ⟨⟨by decide, by decide⟩,
   self_dependency_detected selfDeps [PluginId.Core] PluginId.Core
     (by decide) (by decide)⟩

end Scaffoldpy
